import Mathlib

/-!
Verification of the local source synchronization engine of shadcn-ui-rs:
the LCS-based line differ (`diff_ops`), the unified-diff hunk formatter
(`unified_diff`), and the dependency resolver (`Registry.resolve_dependencies`).
The definitions below are shallow embeddings of the Rust code in
`crates/cli/src/commands/diff.rs` and `crates/registry/src/lib.rs`.
-/

namespace ShadcnSpec

/-! ## Data model: edit operations and tagged lines (diff.rs) -/

/-- `DiffOp` in diff.rs: one edit operation of the script. -/
inductive DiffOp
  | Equal
  | Remove
  | Add
  deriving DecidableEq, Repr

/-- `LineKind` in diff.rs: tag of a line in the formatter output. -/
inductive LineKind
  | Context
  | Remove
  | Add
  deriving DecidableEq, Repr

/-- `TaggedLine` in diff.rs: an operation annotated with 0-based old/new
line numbers and the line text. -/
structure TaggedLine where
  kind : LineKind
  old_line : Nat
  new_line : Nat
  text : String
  deriving DecidableEq, Repr

/-! ## The LCS table and backtracking (diff.rs, `diff_ops`) -/

/-- The recurrence satisfied by the LCS table of diff.rs: `lcsTable old new i j`
is the intended value of `table[i][j]`, the LCS length of the first `i` lines
of `old` and the first `j` lines of `new`.  The concrete table construction
`lcsRows` below is proved to realize this recurrence. -/
def lcsTable (old new : List String) : Nat → Nat → Nat
  | 0, _ => 0
  | _ + 1, 0 => 0
  | i + 1, j + 1 =>
    if old.getD i "" = new.getD j "" then lcsTable old new i j + 1
    else max (lcsTable old new i (j + 1)) (lcsTable old new (i + 1) j)
  termination_by i j => i + j

/-- One row of the LCS table as filled by the inner `j` loop of `diff_ops` in
diff.rs, walking the remaining new lines with the matching tail of the
previous row (`prev.headD 0` is `table[i-1][j-1]`, `prev.getD 1 0` is
`table[i-1][j]`) and the entry just written to the left (`table[i][j-1]`). -/
def rowStep (a : String) : List String → List Nat → Nat → List Nat
  | [], _, _ => []
  | b :: bs, prev, left =>
    let v := if a = b then prev.headD 0 + 1 else max (prev.getD 1 0) left
    v :: rowStep a bs prev.tail v

/-- Rows `1..=m` of the LCS table, each built from the previous row (the
outer `i` loop of `diff_ops`). -/
def lcsRowsRec (new : List String) : List String → List Nat → List (List Nat)
  | [], _ => []
  | a :: rest, prev =>
    (0 :: rowStep a new prev 0) :: lcsRowsRec new rest (0 :: rowStep a new prev 0)

/-- The full `(m+1) × (n+1)` LCS table `table` built by `diff_ops` in
diff.rs: the all-zero row 0 followed by the filled rows. -/
def lcsRows (old new : List String) : List (List Nat) :=
  List.replicate (new.length + 1) 0 :: lcsRowsRec new old (List.replicate (new.length + 1) 0)

/-- `table[i][j]` lookup. -/
def tableGet (tbl : List (List Nat)) (i j : Nat) : Nat :=
  (tbl.getD i []).getD j 0

/-- The backtracking loop of `diff_ops` in diff.rs: starting from `(i, j)`,
emit operations in reverse script order until reaching `(0, 0)`.  The loop
variable pair strictly decreases, so `i + j` steps of fuel always suffice;
every lemma below carries the hypothesis `i + j ≤ fuel`. -/
def diffBackF (old new : List String) (tbl : List (List Nat)) : Nat → Nat → Nat → List DiffOp
  | 0, _, _ => []
  | fuel + 1, i, j =>
    if 0 < i ∧ 0 < j ∧ old.getD (i - 1) "" = new.getD (j - 1) "" then
      DiffOp.Equal :: diffBackF old new tbl fuel (i - 1) (j - 1)
    else if 0 < j ∧ (i = 0 ∨ tableGet tbl i (j - 1) ≥ tableGet tbl (i - 1) j) then
      DiffOp.Add :: diffBackF old new tbl fuel i (j - 1)
    else if 0 < i then
      DiffOp.Remove :: diffBackF old new tbl fuel (i - 1) j
    else
      []

/-- `diff_ops` in diff.rs: build the LCS table, backtrack from
`(old.length, new.length)`, and reverse into old→new order. -/
def diff_ops (old new : List String) : List DiffOp :=
  (diffBackF old new (lcsRows old new) (old.length + new.length) old.length new.length).reverse

/-! ## Rust `str::lines` (used by `unified_diff` to split its inputs) -/

/-- Accumulator pass of Rust `str::split_inclusive('\n')`: chunks end just
after each newline character; an empty string yields no chunks. -/
def splitInclusiveAux : List Char → List Char → List (List Char)
  | acc, [] => if acc.isEmpty then [] else [acc.reverse]
  | acc, c :: cs =>
    if c = '\n' then (acc.reverse ++ [c]) :: splitInclusiveAux [] cs
    else splitInclusiveAux (c :: acc) cs

/-- Rust `str::lines` line-terminator stripping: remove one trailing `'\n'`,
and then one trailing `'\r'` only when a `'\n'` was removed. -/
def stripLineEnd (l : List Char) : List Char :=
  match l.reverse with
  | [] => l
  | c :: rest =>
    if c = '\n' then
      match rest with
      | d :: rest2 => if d = '\r' then rest2.reverse else rest.reverse
      | [] => rest.reverse
    else l

/-- Rust `str::lines`: split inclusively on `'\n'` and strip terminators. -/
def rustLines (s : String) : List String :=
  (splitInclusiveAux [] s.data).map (fun l => String.mk (stripLineEnd l))

/-! ## The unified-diff formatter (diff.rs, `unified_diff`) -/

/-- The forward tagging pass of `unified_diff`: walk the edit script with an
old-line counter and a new-line counter, attaching the consumed text. -/
def tagLines (old new : List String) : List DiffOp → Nat → Nat → List TaggedLine
  | [], _, _ => []
  | DiffOp.Equal :: ops, o, n =>
    ⟨LineKind.Context, o, n, old.getD o ""⟩ :: tagLines old new ops (o + 1) (n + 1)
  | DiffOp.Remove :: ops, o, n =>
    ⟨LineKind.Remove, o, n, old.getD o ""⟩ :: tagLines old new ops (o + 1) n
  | DiffOp.Add :: ops, o, n =>
    ⟨LineKind.Add, o, n, new.getD n ""⟩ :: tagLines old new ops o (n + 1)

/-- The change-index collection of `unified_diff`: indices into the tagged
list whose kind is not `Context`. -/
def changeIndices (tagged : List TaggedLine) : List Nat :=
  (tagged.enum.filter (fun p => p.2.kind ≠ LineKind.Context)).map (fun p => p.1)

/-- One iteration of the hunk-grouping loop of `unified_diff`: split when the
gap of Equal lines since the previous change index exceeds `2 * context`. -/
def groupRangesStep (context : Nat) (st : List (Nat × Nat) × Nat × Nat) (ci : Nat) :
    List (Nat × Nat) × Nat × Nat :=
  let gap := ci - st.2.2 - 1
  if gap > context * 2 then (st.1 ++ [(st.2.1, st.2.2)], ci, ci)
  else (st.1, st.2.1, ci)

/-- The hunk-grouping loop of `unified_diff`: change indices are folded into
`(first_change, last_change)` ranges. -/
def groupRanges (context : Nat) : List Nat → List (Nat × Nat)
  | [] => []
  | c0 :: rest =>
    let st := rest.foldl (groupRangesStep context) ([], c0, c0)
    st.1 ++ [(st.2.1, st.2.2)]

/-- The emission window of a hunk range: `[first_change - context,
last_change + context + 1)` clamped to the tagged-list length
(`saturating_sub` is truncated Nat subtraction). -/
def hunkWindow (context len : Nat) (r : Nat × Nat) : Nat × Nat :=
  (r.1 - context, min (r.2 + context + 1) len)

/-- The single-character marker put before each emitted hunk line. -/
def kindMark : LineKind → String
  | LineKind.Context => " "
  | LineKind.Remove => "-"
  | LineKind.Add => "+"

/-- Placeholder tagged line (the Rust code indexes `hunk_lines[0]`, which is
always in bounds; see the window lemmas below). -/
def defaultTL : TaggedLine :=
  ⟨LineKind.Context, 0, 0, ""⟩

/-- Emission of one hunk of `unified_diff`: header with 1-indexed starts and
filtered counts, then the marked lines of the window. -/
def emitHunk (tagged : List TaggedLine) (context : Nat) (r : Nat × Nat) : String :=
  let w := hunkWindow context tagged.length r
  let hunk_lines := (tagged.drop w.1).take (w.2 - w.1)
  let old_start := (hunk_lines.headD defaultTL).old_line + 1
  let new_start := (hunk_lines.headD defaultTL).new_line + 1
  let old_count := (hunk_lines.filter (fun l => l.kind ≠ LineKind.Add)).length
  let new_count := (hunk_lines.filter (fun l => l.kind ≠ LineKind.Remove)).length
  "@@ -" ++ toString old_start ++ "," ++ toString old_count ++ " +" ++
      toString new_start ++ "," ++ toString new_count ++ " @@\n" ++
    String.join (hunk_lines.map (fun l => kindMark l.kind ++ l.text ++ "\n"))

/-- The two header lines of `unified_diff`. -/
def diffHeader (file_name : String) : String :=
  "--- a/" ++ file_name ++ " (registry)\n" ++ "+++ b/" ++ file_name ++ " (local)\n"

/-- `unified_diff` in diff.rs: split both inputs into lines, diff them, tag
the script, and emit the header followed by the grouped hunks. -/
def unified_diff (old new file_name : String) : String :=
  let old_lines := rustLines old
  let new_lines := rustLines new
  let ops := diff_ops old_lines new_lines
  let tagged := tagLines old_lines new_lines ops 0 0
  let context := 3
  let cis := changeIndices tagged
  if cis.isEmpty then diffHeader file_name
  else diffHeader file_name ++ String.join ((groupRanges context cis).map (emitHunk tagged context))

/-! ## The registry and the dependency resolver (registry/src/lib.rs) -/

/-- `ComponentCategory` in lib.rs. -/
inductive ComponentCategory
  | Input
  | Display
  | Feedback
  | Navigation
  | Layout
  | Special
  deriving DecidableEq, Repr

/-- `ComponentMeta` in lib.rs. -/
structure ComponentMeta where
  name : String
  version : String
  description : String
  gpui_version : String
  files : List String
  dependencies : List String
  category : ComponentCategory
  deriving DecidableEq, Repr

/-- `Registry` in lib.rs. -/
structure Registry where
  version : String
  components : List ComponentMeta
  deriving DecidableEq, Repr

/-- `Registry::find` in lib.rs: first component with the given name. -/
def Registry.find (reg : Registry) (name : String) : Option ComponentMeta :=
  reg.components.find? (fun c => c.name == name)

/-- `Registry::resolve_recursive` in lib.rs, with explicit fuel standing in
for the recursion of the Rust code (the fuel-independence theorem below shows
`resolveFuel` is always enough).  State is `(resolved, visited)`. -/
def resolveRec (reg : Registry) : Nat → String → List String × List String → List String × List String
  | 0, _, st => st
  | fuel + 1, name, st =>
    if name ∈ st.2 then st
    else
      let st1 := (st.1, name :: st.2)
      let st2 :=
        match reg.find name with
        | some c => c.dependencies.foldl (fun s d => resolveRec reg fuel d s) st1
        | none => st1
      (st2.1 ++ [name], st2.2)

/-- Fuel sufficient for any run of the resolver over `reg`. -/
def resolveFuel (reg : Registry) : Nat :=
  reg.components.length + 1

/-- `Registry::resolve_dependencies` in lib.rs: fold the requested names over
the recursive resolver, starting from empty resolved/visited state. -/
def Registry.resolve_dependencies (reg : Registry) (names : List String) : List String :=
  (names.foldl (fun st n => resolveRec reg (resolveFuel reg) n st) ([], [])).1

/-! ## Specification-side notions for the differ -/

/-- `isEditScript s old new` holds when the edit script `s` transforms `old`
into `new`: `Equal` consumes one matching line of each, `Remove` one line of
`old`, `Add` one line of `new`, and both sequences are consumed exactly. -/
def isEditScript : List DiffOp → List String → List String → Bool
  | [], [], [] => true
  | DiffOp.Equal :: s, a :: old, b :: new => a == b && isEditScript s old new
  | DiffOp.Remove :: s, _ :: old, new => isEditScript s old new
  | DiffOp.Add :: s, old, _ :: new => isEditScript s old new
  | _, _, _ => false

/-- The lines of `old` retained by the `Equal` operations of a script. -/
def equalsOld : List DiffOp → List String → List String
  | DiffOp.Equal :: s, a :: old => a :: equalsOld s old
  | DiffOp.Remove :: s, _ :: old => equalsOld s old
  | DiffOp.Add :: s, old => equalsOld s old
  | _, _ => []

/-- The lines of `new` retained by the `Equal` operations of a script. -/
def equalsNew : List DiffOp → List String → List String
  | DiffOp.Equal :: s, b :: new => b :: equalsNew s new
  | DiffOp.Add :: s, _ :: new => equalsNew s new
  | DiffOp.Remove :: s, new => equalsNew s new
  | _, _ => []

/-- The total number of `Remove` plus `Add` operations of a script. -/
def editCost (s : List DiffOp) : Nat :=
  s.count DiffOp.Remove + s.count DiffOp.Add

/-- The number of `Equal` operations of a script. -/
def numEqual (s : List DiffOp) : Nat :=
  s.count DiffOp.Equal

/-- Textbook LCS length by head recursion (the specification-side value the
table of diff.rs is checked against). -/
def lcsLen : List String → List String → Nat
  | [], _ => 0
  | _, [] => 0
  | a :: as, b :: bs =>
    if a = b then lcsLen as bs + 1
    else max (lcsLen as (b :: bs)) (lcsLen (a :: as) bs)
  termination_by l1 l2 => l1.length + l2.length

/-- The tagging pass of `unified_diff` with every line-vector indexing made
explicit: `none` models an out-of-bounds access (a Rust panic). -/
def tagLinesChecked (old new : List String) : List DiffOp → Nat → Nat → Option (List TaggedLine)
  | [], _, _ => some []
  | DiffOp.Equal :: ops, o, n =>
    match old[o]? with
    | some t => (tagLinesChecked old new ops (o + 1) (n + 1)).map
        (fun rest => ⟨LineKind.Context, o, n, t⟩ :: rest)
    | none => none
  | DiffOp.Remove :: ops, o, n =>
    match old[o]? with
    | some t => (tagLinesChecked old new ops (o + 1) n).map
        (fun rest => ⟨LineKind.Remove, o, n, t⟩ :: rest)
    | none => none
  | DiffOp.Add :: ops, o, n =>
    match new[n]? with
    | some t => (tagLinesChecked old new ops o (n + 1)).map
        (fun rest => ⟨LineKind.Add, o, n, t⟩ :: rest)
    | none => none

/-- The backtracking loop with every LCS-table access made explicit: `none`
models an out-of-bounds table index (a Rust panic).  The branch structure
mirrors the short-circuit evaluation of
`j > 0 && (i == 0 || table[i][j-1] >= table[i-1][j])` in diff.rs: the table
is read exactly when `j > 0` and `i ≠ 0`. -/
def diffBackChecked (old new : List String) (tbl : List (List Nat)) :
    Nat → Nat → Nat → Option (List DiffOp)
  | 0, _, _ => some []
  | fuel + 1, i, j =>
    if 0 < i ∧ 0 < j ∧ old.getD (i - 1) "" = new.getD (j - 1) "" then
      (diffBackChecked old new tbl fuel (i - 1) (j - 1)).map (fun s => DiffOp.Equal :: s)
    else if 0 < j ∧ i = 0 then
      (diffBackChecked old new tbl fuel i (j - 1)).map (fun s => DiffOp.Add :: s)
    else if 0 < j then
      (tbl[i]?.bind (fun row => row[j - 1]?)).bind (fun x =>
        (tbl[i - 1]?.bind (fun row => row[j]?)).bind (fun y =>
          if x ≥ y then
            (diffBackChecked old new tbl fuel i (j - 1)).map (fun s => DiffOp.Add :: s)
          else
            (diffBackChecked old new tbl fuel (i - 1) j).map (fun s => DiffOp.Remove :: s)))
    else if 0 < i then
      (diffBackChecked old new tbl fuel (i - 1) j).map (fun s => DiffOp.Remove :: s)
    else
      some []

/-- Recursive restatement of the hunk-grouping fold, used to reason about
`groupRanges` by structural induction. -/
def groupRangesRec (context : Nat) (rs re : Nat) : List Nat → List (Nat × Nat)
  | [] => [(rs, re)]
  | ci :: rest =>
    if ci - re - 1 > context * 2 then (rs, re) :: groupRangesRec context ci ci rest
    else groupRangesRec context rs ci rest

/-- The successive pairs of change indices whose gap of intervening Equal
lines exceeds `2 * context` — exactly the hunk-range boundaries. -/
def boundaryPairs (context : Nat) (cis : List Nat) : List (Nat × Nat) :=
  (cis.zip cis.tail).filter (fun p => p.2 - p.1 - 1 > context * 2)

/-! ## Specification-side notions for the resolver -/

/-- `depRel reg d n`: the registry declares `d` as a dependency of `n`. -/
def depRel (reg : Registry) (d n : String) : Prop :=
  ∃ c, reg.find n = some c ∧ d ∈ c.dependencies

/-- A registry is acyclic when no name transitively depends on itself. -/
def Acyclic (reg : Registry) : Prop :=
  ∀ x, ¬ Relation.TransGen (depRel reg) x x

/-- Number of registry component names not yet visited (the quantity the
fuel of `resolveRec` is measured against). -/
def countMissing (reg : Registry) (visited : List String) : Nat :=
  ((reg.components.map (fun c => c.name)).filter (fun n => decide (n ∉ visited))).length

/-- Invariant of the resolver state `(resolved, visited)` relative to the set
`A` of in-progress (visited but not yet resolved) names. -/
structure ResolverInv (reg : Registry) (st : List String × List String) (A : List String) : Prop where
  nodup : st.1.Nodup
  visEq : ∀ x, x ∈ st.2 ↔ x ∈ st.1 ∨ x ∈ A
  ordered : ∀ N ∈ st.1, ∀ D, depRel reg D N →
    (D ∈ st.1 ∧ List.indexOf D st.1 < List.indexOf N st.1) ∨
    (D ∈ A ∧ Relation.ReflTransGen (depRel reg) N D) ∨
    Relation.TransGen (depRel reg) D D

/-- What one call of the recursive resolver guarantees. -/
structure ResolveOut (reg : Registry) (name : String) (st st' : List String × List String)
    (A : List String) : Prop where
  inv : ResolverInv reg st' A
  delta : ∃ Δ, st'.1 = st.1 ++ Δ ∧
    ∀ x ∈ Δ, x ∉ st.2 ∧ Relation.ReflTransGen (depRel reg) x name
  visMono : ∀ x ∈ st.2, x ∈ st'.2
  nameVis : name ∈ st'.2

/-- What the fold of the resolver over a dependency list guarantees. -/
structure FoldOut (reg : Registry) (ds : List String) (st st' : List String × List String)
    (A : List String) : Prop where
  inv : ResolverInv reg st' A
  delta : ∃ Δ, st'.1 = st.1 ++ Δ ∧
    ∀ x ∈ Δ, x ∉ st.2 ∧ ∃ d ∈ ds, Relation.ReflTransGen (depRel reg) x d
  visMono : ∀ x ∈ st.2, x ∈ st'.2
  depsVis : ∀ d ∈ ds, d ∈ st'.2

/-- The induction statement for the resolver: with sufficient fuel, a call on
a state satisfying the invariant yields `ResolveOut`. -/
def ResolveSpec (reg : Registry) (fuel : Nat) : Prop :=
  ∀ name st A, countMissing reg st.2 + 1 ≤ fuel → ResolverInv reg st A →
    (∀ a ∈ A, Relation.ReflTransGen (depRel reg) name a) →
    ResolveOut reg name st (resolveRec reg fuel name st) A

/-! ## Concrete example inputs -/

/-- Two-component registry of §8 Scenario 3: `toggle_group` depends on
`toggle`. -/
def regToggle : Registry :=
  ⟨"0.2.0",
    [⟨"toggle_group", "0.1.0", "", ">=0.2.0", ["toggle_group.rs"], ["toggle"], ComponentCategory.Input⟩,
     ⟨"toggle", "0.1.0", "", ">=0.2.0", ["toggle.rs"], [], ComponentCategory.Input⟩]⟩

/-- A registry whose dependency graph is the two-cycle `cycA ↔ cycB`. -/
def regCyc : Registry :=
  ⟨"0.2.0",
    [⟨"cycA", "0.1.0", "", ">=0.2.0", [], ["cycB"], ComponentCategory.Input⟩,
     ⟨"cycB", "0.1.0", "", ">=0.2.0", [], ["cycA"], ComponentCategory.Input⟩]⟩

/-- One-component registry whose component declares the unknown dependency
`phantom`. -/
def regGhostDep : Registry :=
  ⟨"0.2.0",
    [⟨"widget", "0.1.0", "", ">=0.2.0", ["widget.rs"], ["phantom"], ComponentCategory.Input⟩]⟩

/-- `k` distinct unchanged separator lines. -/
def sepLines (k : Nat) : List String :=
  (List.range k).map (fun i => toString i)

/-- Scenario 4, wide variant: two single-line changes separated by 10
unchanged lines. -/
def oldGap10 : List String := ["x"] ++ sepLines 10 ++ ["y"]

/-- New side of the wide variant. -/
def newGap10 : List String := ["X"] ++ sepLines 10 ++ ["Y"]

/-- Scenario 4, narrow variant: the same two changes separated by 2
unchanged lines. -/
def oldGap2 : List String := ["x"] ++ sepLines 2 ++ ["y"]

/-- New side of the narrow variant. -/
def newGap2 : List String := ["X"] ++ sepLines 2 ++ ["Y"]

/-! # Theorems -/

/-! ## Identity of the differ and the formatter -/

theorem diffBackF_self (L : List String) (tbl : List (List Nat)) :
    ∀ fuel i, i + i ≤ fuel → diffBackF L L tbl fuel i i = List.replicate i DiffOp.Equal := by
  intro fuel
  induction fuel with
  | zero =>
    intro i h
    have : i = 0 := by omega
    subst this
    rfl
  | succ k ih =>
    intro i h
    match i with
    | 0 => rfl
    | m + 1 =>
      rw [diffBackF]
      rw [if_pos ⟨Nat.succ_pos m, Nat.succ_pos m, rfl⟩]
      rw [List.replicate_succ]
      simp only [Nat.add_sub_cancel]
      rw [ih m (by omega)]

theorem diff_ops_self (L : List String) :
    diff_ops L L = List.replicate L.length DiffOp.Equal := by
  unfold diff_ops
  rw [diffBackF_self L _ _ L.length le_rfl, List.reverse_replicate]

theorem tagLines_equal_kind (old new : List String) :
    ∀ k o n, ∀ t ∈ tagLines old new (List.replicate k DiffOp.Equal) o n,
      t.kind = LineKind.Context := by
  intro k
  induction k with
  | zero => simp [tagLines]
  | succ m ih =>
    intro o n t ht
    rw [List.replicate_succ] at ht
    simp only [tagLines, List.mem_cons] at ht
    rcases ht with rfl | ht
    · rfl
    · exact ih _ _ t ht

theorem changeIndices_replicate (old new : List String) (k o n : Nat) :
    changeIndices (tagLines old new (List.replicate k DiffOp.Equal) o n) = [] := by
  unfold changeIndices
  rw [List.map_eq_nil_iff, List.filter_eq_nil_iff]
  rintro ⟨i, t⟩ hp
  have h := List.mem_enum hp
  have ht : t ∈ tagLines old new (List.replicate k DiffOp.Equal) o n := by
    rw [h.2]; exact List.getElem_mem h.1
  have := tagLines_equal_kind old new k o n t ht
  simp [this]

theorem unified_diff_of_lines_eq (old new label : String) (h : rustLines old = rustLines new) :
    unified_diff old new label = diffHeader label := by
  unfold unified_diff
  rw [h]
  simp only [diff_ops_self, changeIndices_replicate]
  simp

/-- C5: for every line sequence `A`, `diff(A, A)` is an all-`Equal` script of
length `len(A)`, and formatting any string against itself produces exactly
the two header lines and no hunks. -/
theorem C5_diff_identity (A : List String) (s label : String) :
    diff_ops A A = List.replicate A.length DiffOp.Equal ∧
    unified_diff s s label = diffHeader label :=
  ⟨diff_ops_self A, unified_diff_of_lines_eq s s label rfl⟩

/-- C6: on old = `["a","b","c"]`, new = `["a","x","c"]` the differ returns
exactly `[Equal, Remove, Add, Equal]` (`Remove(b)` before `Add(x)`, per the
Add-preferring tie-break read in old→new order), and the formatter emits one
hunk with old_start=1, old_count=3, new_start=1, new_count=3. -/
theorem C6_substitution_scenario (label : String) :
    diff_ops ["a", "b", "c"] ["a", "x", "c"] =
      [DiffOp.Equal, DiffOp.Remove, DiffOp.Add, DiffOp.Equal] ∧
    unified_diff "a\nb\nc" "a\nx\nc" label =
      diffHeader label ++ "@@ -1,3 +1,3 @@\n a\n-b\n+x\n c\n" := by
  refine ⟨by decide, ?_⟩
  simp only [unified_diff]
  rw [if_neg (by decide)]
  congr 1

/-! ## The built table realizes the LCS recurrence -/

theorem lcsTable_zero_left (old new : List String) (j : Nat) : lcsTable old new 0 j = 0 := by
  simp [lcsTable]

theorem lcsTable_zero_right (old new : List String) (i : Nat) : lcsTable old new i 0 = 0 := by
  cases i <;> simp [lcsTable]

theorem lcsTable_succ (old new : List String) (i j : Nat) :
    lcsTable old new (i + 1) (j + 1) =
      if old.getD i "" = new.getD j "" then lcsTable old new i j + 1
      else max (lcsTable old new i (j + 1)) (lcsTable old new (i + 1) j) := by
  rw [lcsTable]

theorem getD_drop (l : List Nat) (t k : Nat) : (l.drop t).getD k 0 = l.getD (t + k) 0 := by
  simp [List.getD_eq_getElem?_getD, List.getElem?_drop]

theorem headD_eq_getD_zero (l : List Nat) : l.headD 0 = l.getD 0 0 := by
  cases l <;> simp

theorem rowStep_spec (old new : List String) (i : Nat) (prev : List Nat)
    (hprev : ∀ j, j ≤ new.length → prev.getD j 0 = lcsTable old new i j) :
    ∀ k t, t ≤ new.length → new.length - t = k →
      rowStep (old.getD i "") (new.drop t) (prev.drop t) (lcsTable old new (i + 1) t) =
        (List.range' (t + 1) (new.length - t)).map (lcsTable old new (i + 1)) := by
  intro k
  induction k with
  | zero =>
    intro t ht hk
    have : t = new.length := by omega
    subst this
    simp [rowStep]
  | succ k ih =>
    intro t ht hk
    have htlt : t < new.length := by omega
    rw [List.drop_eq_getElem_cons htlt]
    simp only [rowStep]
    have hnt : new[t] = new.getD t "" := by
      rw [List.getD_eq_getElem?_getD, List.getElem?_eq_getElem htlt]
      rfl
    have hhead : (prev.drop t).headD 0 = lcsTable old new i t := by
      rw [headD_eq_getD_zero, getD_drop]
      simpa using hprev t (by omega)
    have hone : (prev.drop t).getD 1 0 = lcsTable old new i (t + 1) := by
      rw [getD_drop]
      exact hprev (t + 1) (by omega)
    have htail : (prev.drop t).tail = prev.drop (t + 1) := List.tail_drop prev t
    rw [hnt, hhead, hone, htail, ← lcsTable_succ]
    rw [ih (t + 1) (by omega) (by omega)]
    have hlen : new.length - t = (new.length - (t + 1)) + 1 := by omega
    rw [hlen, List.range'_succ]
    simp

theorem row_getD (old new : List String) (i : Nat) (prev : List Nat)
    (hprev : ∀ j, j ≤ new.length → prev.getD j 0 = lcsTable old new i j) :
    ∀ j, j ≤ new.length →
      (0 :: rowStep (old.getD i "") new prev 0).getD j 0 = lcsTable old new (i + 1) j := by
  intro j hj
  match j with
  | 0 => simp [lcsTable_zero_right]
  | j + 1 =>
    have h0 : lcsTable old new (i + 1) 0 = 0 := lcsTable_zero_right old new (i + 1)
    have := rowStep_spec old new i prev hprev new.length 0 (by omega) (by omega)
    simp only [List.drop_zero, Nat.sub_zero] at this
    rw [h0] at this
    simp only [List.getD_cons_succ]
    rw [this, List.getD_eq_getElem?_getD, List.getElem?_map]
    have hj2 : (List.range' 1 new.length)[j]? = some (1 + j) := by
      rw [List.getElem?_range' 1 1 (by omega)]
      simp
    rw [hj2]
    simp [Nat.add_comm 1 j]

theorem lcsRowsRec_spec (old new : List String) :
    ∀ K t prev, old.length - t = K → t ≤ old.length →
      (∀ j, j ≤ new.length → prev.getD j 0 = lcsTable old new t j) →
      ∀ i j, t < i → i ≤ old.length → j ≤ new.length →
        ((lcsRowsRec new (old.drop t) prev).getD (i - t - 1) []).getD j 0 =
          lcsTable old new i j := by
  intro K
  induction K with
  | zero =>
    intro t prev hK ht hprev i j hti hi hj
    omega
  | succ K ih =>
    intro t prev hK ht hprev i j hti hi hj
    have htlt : t < old.length := by omega
    rw [List.drop_eq_getElem_cons htlt]
    simp only [lcsRowsRec]
    have hot : old[t] = old.getD t "" := by
      rw [List.getD_eq_getElem?_getD, List.getElem?_eq_getElem htlt]
      rfl
    have hcur : ∀ j, j ≤ new.length →
        (0 :: rowStep old[t] new prev 0).getD j 0 = lcsTable old new (t + 1) j := by
      rw [hot]
      exact row_getD old new t prev hprev
    match hmi : i - t - 1 with
    | 0 =>
      have : i = t + 1 := by omega
      subst this
      simp only [List.getD_cons_zero]
      exact hcur j hj
    | r + 1 =>
      simp only [List.getD_cons_succ]
      have := ih (t + 1) (0 :: rowStep old[t] new prev 0) (by omega) (by omega) hcur i j
        (by omega) hi hj
      have hr : i - (t + 1) - 1 = r := by omega
      rw [hr] at this
      exact this

theorem tableGet_lcsRows (old new : List String) (i j : Nat)
    (hi : i ≤ old.length) (hj : j ≤ new.length) :
    tableGet (lcsRows old new) i j = lcsTable old new i j := by
  unfold tableGet lcsRows
  match i with
  | 0 =>
    simp only [List.getD_cons_zero]
    rw [lcsTable_zero_left]
    rw [List.getD_eq_getElem?_getD]
    match hc : (List.replicate (new.length + 1) (0 : Nat))[j]? with
    | none => rfl
    | some v =>
      have := List.getElem?_mem hc
      have := List.eq_of_mem_replicate this
      simp [this]
  | i + 1 =>
    simp only [List.getD_cons_succ]
    have hprev : ∀ j, j ≤ new.length →
        (List.replicate (new.length + 1) (0 : Nat)).getD j 0 = lcsTable old new 0 j := by
      intro j hj
      rw [lcsTable_zero_left, List.getD_eq_getElem?_getD, List.getElem?_replicate]
      split <;> rfl
    have := lcsRowsRec_spec old new old.length 0 (List.replicate (new.length + 1) 0)
      (by omega) (by omega) hprev (i + 1) j (by omega) hi hj
    simpa using this

/-! ## The backtracked script transforms `old` into `new` -/

theorem isEditScript_nil {o n : List String} (h : isEditScript [] o n = true) :
    o = [] ∧ n = [] := by
  cases o <;> cases n <;> simp_all [isEditScript]

theorem isEditScript_append : ∀ {s1 : List DiffOp} {o1 n1 s2 o2 n2},
    isEditScript s1 o1 n1 = true → isEditScript s2 o2 n2 = true →
    isEditScript (s1 ++ s2) (o1 ++ o2) (n1 ++ n2) = true := by
  intro s1
  induction s1 with
  | nil =>
    intro o1 n1 s2 o2 n2 h1 h2
    obtain ⟨rfl, rfl⟩ := isEditScript_nil h1
    simpa using h2
  | cons op s ih =>
    intro o1 n1 s2 o2 n2 h1 h2
    match op, o1, n1 with
    | DiffOp.Equal, [], _ => simp [isEditScript] at h1
    | DiffOp.Equal, _ :: _, [] => simp [isEditScript] at h1
    | DiffOp.Equal, a :: o1, b :: n1 =>
      simp only [isEditScript, Bool.and_eq_true, beq_iff_eq] at h1
      simp only [List.cons_append, isEditScript, Bool.and_eq_true, beq_iff_eq]
      exact ⟨h1.1, ih h1.2 h2⟩
    | DiffOp.Remove, [], _ => simp [isEditScript] at h1
    | DiffOp.Remove, a :: o1, n1 =>
      simp only [isEditScript] at h1
      simp only [List.cons_append, isEditScript]
      exact ih h1 h2
    | DiffOp.Add, _, [] => simp [isEditScript] at h1
    | DiffOp.Add, o1, b :: n1 =>
      simp only [isEditScript] at h1
      simp only [List.cons_append, isEditScript]
      exact ih h1 h2

theorem take_succ_getD (l : List String) (k : Nat) (hk : k < l.length) :
    l.take (k + 1) = l.take k ++ [l.getD k ""] := by
  rw [List.take_succ]
  congr 1
  simp [List.getD_eq_getElem?_getD, List.getElem?_eq_getElem hk]

theorem diffBack_edit (old new : List String) :
    ∀ fuel i j, i + j ≤ fuel → i ≤ old.length → j ≤ new.length →
      isEditScript (diffBackF old new (lcsRows old new) fuel i j).reverse
        (old.take i) (new.take j) = true := by
  intro fuel
  induction fuel with
  | zero =>
    intro i j h hi hj
    have hi0 : i = 0 := by omega
    have hj0 : j = 0 := by omega
    subst hi0; subst hj0
    rfl
  | succ f ih =>
    intro i j h hi hj
    rw [diffBackF]
    split_ifs with h1 h2 h3
    · obtain ⟨hi0, hj0, heq⟩ := h1
      rw [List.reverse_cons]
      have hoi : old.take i = old.take (i - 1) ++ [old.getD (i - 1) ""] := by
        have ht := take_succ_getD old (i - 1) (by omega)
        rwa [Nat.sub_add_cancel hi0] at ht
      have hnj : new.take j = new.take (j - 1) ++ [new.getD (j - 1) ""] := by
        have ht := take_succ_getD new (j - 1) (by omega)
        rwa [Nat.sub_add_cancel hj0] at ht
      rw [hoi, hnj]
      exact isEditScript_append (ih (i - 1) (j - 1) (by omega) (by omega) (by omega))
        (by simpa [isEditScript] using heq)
    · obtain ⟨hj0, -⟩ := h2
      rw [List.reverse_cons]
      have hnj : new.take j = new.take (j - 1) ++ [new.getD (j - 1) ""] := by
        have ht := take_succ_getD new (j - 1) (by omega)
        rwa [Nat.sub_add_cancel hj0] at ht
      rw [hnj, show old.take i = old.take i ++ [] by simp]
      exact isEditScript_append (ih i (j - 1) (by omega) (by omega) (by omega))
        (by simp [isEditScript])
    · rw [List.reverse_cons]
      have hoi : old.take i = old.take (i - 1) ++ [old.getD (i - 1) ""] := by
        have ht := take_succ_getD old (i - 1) (by omega)
        rwa [Nat.sub_add_cancel h3] at ht
      rw [hoi, show new.take j = new.take j ++ [] by simp]
      exact isEditScript_append (ih (i - 1) j (by omega) (by omega) (by omega))
        (by simp [isEditScript])
    · have hi0 : i = 0 := by omega
      have hj0 : j = 0 := by
        by_contra hne
        exact h2 ⟨by omega, Or.inl hi0⟩
      subst hi0; subst hj0
      rfl

theorem diff_ops_isEditScript (old new : List String) :
    isEditScript (diff_ops old new) old new = true := by
  have h := diffBack_edit old new (old.length + new.length) old.length new.length
    le_rfl le_rfl le_rfl
  simpa [diff_ops, List.take_length] using h

/-! ## Tagged-line reconstruction (C1) -/

theorem drop_cons_getD (l : List String) (k : Nat) (a : String) (t : List String)
    (h : l.drop k = a :: t) : l.getD k "" = a ∧ l.drop (k + 1) = t := by
  constructor
  · have h0 : l[k]? = some a := by
      have := List.getElem?_drop l k 0
      rw [h] at this
      simpa using this.symm
    rw [List.getD_eq_getElem?_getD, h0]
    rfl
  · rw [← List.tail_drop, h]
    rfl

theorem tagLines_reconstruct (old new : List String) :
    ∀ s k l, isEditScript s (old.drop k) (new.drop l) = true →
      ((tagLines old new s k l).filter (fun t => t.kind ≠ LineKind.Add)).map
          (fun t => t.text) = old.drop k ∧
      ((tagLines old new s k l).filter (fun t => t.kind ≠ LineKind.Remove)).map
          (fun t => t.text) = new.drop l := by
  intro s
  induction s with
  | nil =>
    intro k l h
    obtain ⟨ho, hn⟩ := isEditScript_nil h
    simp [tagLines, ho, hn]
  | cons op s ih =>
    intro k l h
    match op with
    | DiffOp.Equal =>
      match ho : old.drop k, hn : new.drop l with
      | [], _ => rw [ho] at h; simp [isEditScript] at h
      | _ :: _, [] => rw [ho, hn] at h; simp [isEditScript] at h
      | a :: os, b :: nw =>
        rw [ho, hn] at h
        simp only [isEditScript, Bool.and_eq_true, beq_iff_eq] at h
        obtain ⟨hab, h⟩ := h
        obtain ⟨hga, hda⟩ := drop_cons_getD old k a os ho
        obtain ⟨hgb, hdb⟩ := drop_cons_getD new l b nw hn
        have IH := ih (k + 1) (l + 1) (by rw [hda, hdb]; exact h)
        simp only [tagLines]
        constructor
        · rw [List.filter_cons_of_pos (by simp), List.map_cons, IH.1, hda, hga]
        · rw [List.filter_cons_of_pos (by simp), List.map_cons, IH.2, hdb, hga, hab]
    | DiffOp.Remove =>
      match ho : old.drop k with
      | [] => rw [ho] at h; simp [isEditScript] at h
      | a :: os =>
        rw [ho] at h
        simp only [isEditScript] at h
        obtain ⟨hga, hda⟩ := drop_cons_getD old k a os ho
        have IH := ih (k + 1) l (by rw [hda]; exact h)
        simp only [tagLines]
        constructor
        · rw [List.filter_cons_of_pos (by simp), List.map_cons, IH.1, hda, hga]
        · rw [List.filter_cons_of_neg (by simp), IH.2]
    | DiffOp.Add =>
      match hn : new.drop l with
      | [] => rw [hn] at h; simp [isEditScript] at h
      | b :: nw =>
        rw [hn] at h
        simp only [isEditScript] at h
        obtain ⟨hgb, hdb⟩ := drop_cons_getD new l b nw hn
        have IH := ih k (l + 1) (by rw [hdb]; exact h)
        simp only [tagLines]
        constructor
        · rw [List.filter_cons_of_neg (by simp), IH.1]
        · rw [List.filter_cons_of_pos (by simp), List.map_cons, IH.2, hdb, hgb]

/-- C1: for all line sequences, the tagged edit script of `diff(old, new)`
filtered to the non-`Add` entries carries exactly the lines of `old` in
order, and filtered to the non-`Remove` entries exactly the lines of `new` —
replaying `{Equal, Remove}` reconstructs `old` and `{Equal, Add}`
reconstructs `new`. -/
theorem C1_diff_reconstruction (old new : List String) :
    ((tagLines old new (diff_ops old new) 0 0).filter (fun t => t.kind ≠ LineKind.Add)).map
        (fun t => t.text) = old ∧
    ((tagLines old new (diff_ops old new) 0 0).filter (fun t => t.kind ≠ LineKind.Remove)).map
        (fun t => t.text) = new := by
  have h := tagLines_reconstruct old new (diff_ops old new) 0 0
    (by simpa using diff_ops_isEditScript old new)
  simpa using h

/-! ## Cost of the backtracked script -/

theorem editCost_cons_equal (s : List DiffOp) : editCost (DiffOp.Equal :: s) = editCost s := by
  simp [editCost, List.count_cons]

theorem editCost_cons_remove (s : List DiffOp) :
    editCost (DiffOp.Remove :: s) = editCost s + 1 := by
  simp [editCost, List.count_cons]
  omega

theorem editCost_cons_add (s : List DiffOp) : editCost (DiffOp.Add :: s) = editCost s + 1 := by
  simp [editCost, List.count_cons]
  omega

theorem lcsTable_le (old new : List String) :
    ∀ K i j, i + j ≤ K → lcsTable old new i j ≤ i ∧ lcsTable old new i j ≤ j := by
  intro K
  induction K with
  | zero =>
    intro i j h
    have hi : i = 0 := by omega
    subst hi
    simp [lcsTable_zero_left]
  | succ K ih =>
    intro i j h
    match i, j with
    | 0, j => simp [lcsTable_zero_left]
    | i + 1, 0 => simp [lcsTable_zero_right]
    | i + 1, j + 1 =>
      rw [lcsTable_succ]
      split
      · have := ih i j (by omega)
        omega
      · have h1 := ih i (j + 1) (by omega)
        have h2 := ih (i + 1) j (by omega)
        simp only [Nat.max_le]
        omega

theorem lcsTable_equal_branch (old new : List String) (i j : Nat)
    (heq : old.getD i "" = new.getD j "") :
    lcsTable old new (i + 1) (j + 1) = lcsTable old new i j + 1 := by
  rw [lcsTable_succ, if_pos heq]

theorem lcsTable_add_branch (old new : List String) (i j : Nat)
    (h : i = 0 ∨ (¬ old.getD (i - 1) "" = new.getD j "" ∧
      lcsTable old new i j ≥ lcsTable old new (i - 1) (j + 1))) :
    lcsTable old new i (j + 1) = lcsTable old new i j := by
  match i with
  | 0 => rw [lcsTable_zero_left, lcsTable_zero_left]
  | i + 1 =>
    rcases h with h0 | ⟨hne, hge⟩
    · omega
    · rw [lcsTable_succ, if_neg (by simpa using hne)]
      simp only [Nat.add_sub_cancel] at hge
      exact Nat.max_eq_right (by simpa using hge)

theorem lcsTable_remove_branch (old new : List String) (i j : Nat)
    (h : j = 0 ∨ (¬ old.getD i "" = new.getD (j - 1) "" ∧
      lcsTable old new (i + 1) (j - 1) < lcsTable old new i j)) :
    lcsTable old new (i + 1) j = lcsTable old new i j := by
  match j with
  | 0 => rw [lcsTable_zero_right, lcsTable_zero_right]
  | j + 1 =>
    rcases h with h0 | ⟨hne, hlt⟩
    · omega
    · rw [lcsTable_succ, if_neg (by simpa using hne)]
      simp only [Nat.add_sub_cancel] at hlt
      exact Nat.max_eq_left (by omega)

theorem diffBack_cost (old new : List String) :
    ∀ fuel i j, i + j ≤ fuel → i ≤ old.length → j ≤ new.length →
      editCost (diffBackF old new (lcsRows old new) fuel i j) +
        2 * lcsTable old new i j = i + j := by
  intro fuel
  induction fuel with
  | zero =>
    intro i j h hi hj
    have hi0 : i = 0 := by omega
    have hj0 : j = 0 := by omega
    subst hi0; subst hj0
    simp [diffBackF, editCost, lcsTable_zero_left]
  | succ f ih =>
    intro i j h hi hj
    rw [diffBackF]
    split_ifs with h1 h2 h3
    · obtain ⟨hi0, hj0, heq⟩ := h1
      obtain ⟨i', rfl⟩ : ∃ i', i = i' + 1 := ⟨i - 1, by omega⟩
      obtain ⟨j', rfl⟩ : ∃ j', j = j' + 1 := ⟨j - 1, by omega⟩
      simp only [Nat.add_sub_cancel] at heq ⊢
      rw [editCost_cons_equal, lcsTable_equal_branch old new i' j' heq]
      have := ih i' j' (by omega) (by omega) (by omega)
      omega
    · obtain ⟨hj0, hor⟩ := h2
      obtain ⟨j', rfl⟩ : ∃ j', j = j' + 1 := ⟨j - 1, by omega⟩
      simp only [Nat.add_sub_cancel] at hor h1 ⊢
      rw [editCost_cons_add]
      have hlcs : lcsTable old new i (j' + 1) = lcsTable old new i j' := by
        apply lcsTable_add_branch
        rcases hor with h0 | hge
        · exact Or.inl h0
        · rcases Nat.eq_zero_or_pos i with h0 | hpos
          · exact Or.inl h0
          · refine Or.inr ⟨?_, ?_⟩
            · intro hc
              exact h1 ⟨hpos, by omega, hc⟩
            · rw [tableGet_lcsRows old new i j' hi (by omega),
                tableGet_lcsRows old new (i - 1) (j' + 1) (by omega) (by omega)] at hge
              exact hge
      rw [hlcs]
      have := ih i j' (by omega) (by omega) (by omega)
      omega
    · obtain ⟨i', rfl⟩ : ∃ i', i = i' + 1 := ⟨i - 1, by omega⟩
      simp only [Nat.add_sub_cancel] at h1 h2 ⊢
      rw [editCost_cons_remove]
      have hlcs : lcsTable old new (i' + 1) j = lcsTable old new i' j := by
        apply lcsTable_remove_branch
        rcases Nat.eq_zero_or_pos j with h0 | hpos
        · exact Or.inl h0
        · refine Or.inr ⟨?_, ?_⟩
          · intro hc
            exact h1 ⟨by omega, hpos, hc⟩
          · have hnot : ¬ (tableGet (lcsRows old new) (i' + 1) (j - 1) ≥
                tableGet (lcsRows old new) i' j) := by
              intro hc
              exact h2 ⟨hpos, Or.inr hc⟩
            rw [tableGet_lcsRows old new (i' + 1) (j - 1) hi (by omega),
              tableGet_lcsRows old new i' j (by omega) hj] at hnot
            omega
      rw [hlcs]
      have := ih i' j (by omega) (by omega) (by omega)
      omega
    · have hi0 : i = 0 := by omega
      have hj0 : j = 0 := by
        by_contra hne
        exact h2 ⟨by omega, Or.inl hi0⟩
      subst hi0; subst hj0
      simp [editCost, lcsTable_zero_left]

theorem editCost_reverse (s : List DiffOp) : editCost s.reverse = editCost s := by
  simp [editCost]

theorem diff_ops_cost (old new : List String) :
    editCost (diff_ops old new) + 2 * lcsTable old new old.length new.length =
      old.length + new.length := by
  rw [diff_ops, editCost_reverse]
  exact diffBack_cost old new (old.length + new.length) old.length new.length
    le_rfl le_rfl le_rfl

/-! ## Minimality: the retained Equal lines form a maximum common subsequence -/

theorem equalsOld_sublist : ∀ (s : List DiffOp) (o : List String), (equalsOld s o).Sublist o := by
  intro s
  induction s with
  | nil => intro o; simp [equalsOld]
  | cons op s ih =>
    intro o
    match op, o with
    | DiffOp.Equal, [] => simp [equalsOld]
    | DiffOp.Equal, a :: o => exact (ih o).cons₂ a
    | DiffOp.Remove, [] => simp [equalsOld]
    | DiffOp.Remove, a :: o => exact (ih o).cons a
    | DiffOp.Add, o => exact ih o

theorem equalsNew_sublist : ∀ (s : List DiffOp) (n : List String), (equalsNew s n).Sublist n := by
  intro s
  induction s with
  | nil => intro n; simp [equalsNew]
  | cons op s ih =>
    intro n
    match op, n with
    | DiffOp.Equal, [] => simp [equalsNew]
    | DiffOp.Equal, b :: n => exact (ih n).cons₂ b
    | DiffOp.Add, [] => simp [equalsNew]
    | DiffOp.Add, b :: n => exact (ih n).cons b
    | DiffOp.Remove, n => exact ih n

theorem equals_eq : ∀ {s : List DiffOp} {o n : List String}, isEditScript s o n = true →
    equalsOld s o = equalsNew s n := by
  intro s
  induction s with
  | nil =>
    intro o n h
    obtain ⟨rfl, rfl⟩ := isEditScript_nil h
    rfl
  | cons op s ih =>
    intro o n h
    match op, o, n with
    | DiffOp.Equal, [], _ => simp [isEditScript] at h
    | DiffOp.Equal, _ :: _, [] => simp [isEditScript] at h
    | DiffOp.Equal, a :: o, b :: n =>
      simp only [isEditScript, Bool.and_eq_true, beq_iff_eq] at h
      simp only [equalsOld, equalsNew]
      rw [h.1, ih h.2]
    | DiffOp.Remove, [], _ => simp [isEditScript] at h
    | DiffOp.Remove, a :: o, n =>
      simp only [isEditScript] at h
      simp only [equalsOld, equalsNew]
      exact ih h
    | DiffOp.Add, _, [] => simp [isEditScript] at h
    | DiffOp.Add, o, b :: n =>
      simp only [isEditScript] at h
      simp only [equalsOld, equalsNew]
      exact ih h

theorem numEqual_cons_equal (s : List DiffOp) : numEqual (DiffOp.Equal :: s) = numEqual s + 1 := by
  simp [numEqual, List.count_cons]

theorem numEqual_cons_remove (s : List DiffOp) : numEqual (DiffOp.Remove :: s) = numEqual s := by
  simp [numEqual, List.count_cons]

theorem numEqual_cons_add (s : List DiffOp) : numEqual (DiffOp.Add :: s) = numEqual s := by
  simp [numEqual, List.count_cons]

theorem equalsOld_length : ∀ {s : List DiffOp} {o n : List String},
    isEditScript s o n = true → (equalsOld s o).length = numEqual s := by
  intro s
  induction s with
  | nil =>
    intro o n h
    obtain ⟨rfl, rfl⟩ := isEditScript_nil h
    rfl
  | cons op s ih =>
    intro o n h
    match op, o, n with
    | DiffOp.Equal, [], _ => simp [isEditScript] at h
    | DiffOp.Equal, _ :: _, [] => simp [isEditScript] at h
    | DiffOp.Equal, a :: o, b :: n =>
      simp only [isEditScript, Bool.and_eq_true, beq_iff_eq] at h
      simp only [equalsOld, List.length_cons, numEqual_cons_equal]
      rw [ih h.2]
    | DiffOp.Remove, [], _ => simp [isEditScript] at h
    | DiffOp.Remove, a :: o, n =>
      simp only [isEditScript] at h
      simp only [equalsOld, numEqual_cons_remove]
      exact ih h
    | DiffOp.Add, _, [] => simp [isEditScript] at h
    | DiffOp.Add, o, b :: n =>
      simp only [isEditScript] at h
      simp only [equalsOld, numEqual_cons_add]
      exact ih h

theorem editCost_add_numEqual : ∀ {s : List DiffOp} {o n : List String},
    isEditScript s o n = true →
    editCost s + 2 * numEqual s = o.length + n.length := by
  intro s
  induction s with
  | nil =>
    intro o n h
    obtain ⟨rfl, rfl⟩ := isEditScript_nil h
    rfl
  | cons op s ih =>
    intro o n h
    match op, o, n with
    | DiffOp.Equal, [], _ => simp [isEditScript] at h
    | DiffOp.Equal, _ :: _, [] => simp [isEditScript] at h
    | DiffOp.Equal, a :: o, b :: n =>
      simp only [isEditScript, Bool.and_eq_true, beq_iff_eq] at h
      have := ih h.2
      rw [editCost_cons_equal, numEqual_cons_equal]
      simp only [List.length_cons]
      omega
    | DiffOp.Remove, [], _ => simp [isEditScript] at h
    | DiffOp.Remove, a :: o, n =>
      simp only [isEditScript] at h
      have := ih h
      rw [editCost_cons_remove, numEqual_cons_remove]
      simp only [List.length_cons]
      omega
    | DiffOp.Add, _, [] => simp [isEditScript] at h
    | DiffOp.Add, o, b :: n =>
      simp only [isEditScript] at h
      have := ih h
      rw [editCost_cons_add, numEqual_cons_add]
      simp only [List.length_cons]
      omega

theorem length_le_lcsLen : ∀ (K : Nat) (as bs c : List String), as.length + bs.length ≤ K →
    c.Sublist as → c.Sublist bs → c.length ≤ lcsLen as bs := by
  intro K
  induction K with
  | zero =>
    intro as bs c h h1 h2
    have ha : as = [] := by
      cases as with
      | nil => rfl
      | cons x xs => simp at h
    subst ha
    have : c = [] := List.sublist_nil.mp h1
    subst this
    simp
  | succ K ih =>
    intro as bs c h h1 h2
    match as, bs with
    | [], _ =>
      have : c = [] := List.sublist_nil.mp h1
      subst this
      simp
    | _ :: _, [] =>
      have : c = [] := List.sublist_nil.mp h2
      subst this
      simp [lcsLen]
    | a :: as, b :: bs =>
      simp only [List.length_cons] at h
      simp only [lcsLen]
      by_cases hab : a = b
      · rw [if_pos hab]
        rcases List.sublist_cons_iff.mp h1 with h1' | ⟨c₁, rfl, h1'⟩
        · rcases List.sublist_cons_iff.mp h2 with h2' | ⟨c₁, rfl, h2'⟩
          · exact le_trans (ih as bs c (by omega) h1' h2') (Nat.le_succ _)
          · have hc1 : c₁.Sublist as := (List.sublist_cons_self b c₁).trans h1'
            have hrec := ih as bs c₁ (by omega) hc1 h2'
            simpa using Nat.succ_le_succ hrec
        · rcases List.sublist_cons_iff.mp h2 with h2' | ⟨c₂, heq, h2'⟩
          · have hc1 : c₁.Sublist bs := (List.sublist_cons_self a c₁).trans h2'
            have hrec := ih as bs c₁ (by omega) h1' hc1
            simpa using Nat.succ_le_succ hrec
          · obtain ⟨rfl, rfl⟩ : a = b ∧ c₁ = c₂ := by
              injection heq with hx hy
              exact ⟨hx, hy⟩
            have hrec := ih as bs c₁ (by omega) h1' h2'
            simpa using Nat.succ_le_succ hrec
      · rw [if_neg hab]
        rcases List.sublist_cons_iff.mp h1 with h1' | ⟨c₁, rfl, h1'⟩
        · exact le_trans (ih as (b :: bs) c (by simp; omega) h1' h2) (le_max_left _ _)
        · rcases List.sublist_cons_iff.mp h2 with h2' | ⟨c₂, heq, h2'⟩
          · exact le_trans (ih (a :: as) bs (a :: c₁) (by simp; omega)
              (List.cons_sublist_cons.mpr h1') h2') (le_max_right _ _)
          · cases heq
            exact absurd rfl hab

theorem take_reverse_succ (l : List String) (i : Nat) (hi : i < l.length) :
    (l.take (i + 1)).reverse = l.getD i "" :: (l.take i).reverse := by
  rw [take_succ_getD l i hi, List.reverse_append]
  rfl

theorem lcsTable_eq_lcsLen_rev (old new : List String) :
    ∀ K i j, i + j ≤ K → i ≤ old.length → j ≤ new.length →
      lcsTable old new i j = lcsLen (old.take i).reverse (new.take j).reverse := by
  intro K
  induction K with
  | zero =>
    intro i j h hi hj
    have hi0 : i = 0 := by omega
    have hj0 : j = 0 := by omega
    subst hi0; subst hj0
    simp [lcsTable_zero_left, lcsLen]
  | succ K ih =>
    intro i j h hi hj
    match i, j with
    | 0, j => simp [lcsTable_zero_left, lcsLen]
    | i + 1, 0 =>
      rw [lcsTable_zero_right]
      rw [take_reverse_succ old i (by omega)]
      simp [lcsLen]
    | i + 1, j + 1 =>
      rw [lcsTable_succ, take_reverse_succ old i (by omega), take_reverse_succ new j (by omega)]
      simp only [lcsLen]
      split
      · rw [ih i j (by omega) (by omega) (by omega)]
      · rw [ih i (j + 1) (by omega) (by omega) (by omega),
          ih (i + 1) j (by omega) (by omega) (by omega),
          take_reverse_succ old i (by omega), take_reverse_succ new j (by omega)]

theorem numEqual_le_lcs (old new : List String) (s : List DiffOp)
    (hs : isEditScript s old new = true) :
    numEqual s ≤ lcsTable old new old.length new.length := by
  have hc1 : (equalsOld s old).Sublist old := equalsOld_sublist s old
  have hc2 : (equalsOld s old).Sublist new := by
    rw [equals_eq hs]
    exact equalsNew_sublist s new
  have hbridge : lcsTable old new old.length new.length = lcsLen old.reverse new.reverse := by
    have := lcsTable_eq_lcsLen_rev old new (old.length + new.length) old.length new.length
      le_rfl le_rfl le_rfl
    simpa [List.take_length] using this
  rw [hbridge, ← equalsOld_length hs, ← List.length_reverse (equalsOld s old)]
  exact length_le_lcsLen (old.reverse.length + new.reverse.length) _ _ _ le_rfl
    hc1.reverse hc2.reverse

/-- C2: `diff(old, new)` transforms `old` into `new`; its Remove+Add count
equals `len(old) + len(new) - 2 * LCS(old, new)` where the table value at
`(m, n)` is the true maximum common-subsequence length (bounded above by it
and attained); and that count is minimal over all edit scripts. -/
theorem C2_diff_minimality (old new : List String) :
    isEditScript (diff_ops old new) old new = true ∧
    editCost (diff_ops old new) =
      old.length + new.length - 2 * lcsTable old new old.length new.length ∧
    (∀ c : List String, c.Sublist old → c.Sublist new →
      c.length ≤ lcsTable old new old.length new.length) ∧
    (∃ c : List String, c.Sublist old ∧ c.Sublist new ∧
      c.length = lcsTable old new old.length new.length) ∧
    (∀ s, isEditScript s old new = true → editCost (diff_ops old new) ≤ editCost s) := by
  have hedit := diff_ops_isEditScript old new
  have hcost := diff_ops_cost old new
  have hbound := lcsTable_le old new (old.length + new.length) old.length new.length le_rfl
  have hub : ∀ c : List String, c.Sublist old → c.Sublist new →
      c.length ≤ lcsTable old new old.length new.length := by
    intro c h1 h2
    have hbridge : lcsTable old new old.length new.length = lcsLen old.reverse new.reverse := by
      have := lcsTable_eq_lcsLen_rev old new (old.length + new.length) old.length new.length
        le_rfl le_rfl le_rfl
      simpa [List.take_length] using this
    rw [hbridge, ← List.length_reverse c]
    exact length_le_lcsLen (old.reverse.length + new.reverse.length) _ _ _ le_rfl
      h1.reverse h2.reverse
  refine ⟨hedit, by omega, hub, ?_, ?_⟩
  · refine ⟨equalsOld (diff_ops old new) old, equalsOld_sublist _ _, ?_, ?_⟩
    · rw [equals_eq hedit]
      exact equalsNew_sublist _ _
    · have hid := editCost_add_numEqual hedit
      have hle := numEqual_le_lcs old new (diff_ops old new) hedit
      rw [equalsOld_length hedit]
      omega
  · intro s hs
    have hid := editCost_add_numEqual hs
    have hle := numEqual_le_lcs old new s hs
    omega

/-- Witness instantiating the hypothesized parts of `C2_diff_minimality`. -/
theorem C2_witness :
    editCost (diff_ops ["a"] []) ≤ editCost [DiffOp.Remove] ∧
    ([] : List String).length ≤ lcsTable ["a"] [] 1 0 :=
  ⟨(C2_diff_minimality ["a"] []).2.2.2.2 [DiffOp.Remove] (by decide),
   (C2_diff_minimality ["a"] []).2.2.1 [] (List.nil_sublist _) (List.nil_sublist _)⟩

/-! ## Hunk grouping and hunk ordering -/

theorem groupRanges_foldl (context : Nat) :
    ∀ (rest : List Nat) (acc : List (Nat × Nat)) (rs re : Nat),
      (rest.foldl (groupRangesStep context) (acc, rs, re)).1 ++
        [((rest.foldl (groupRangesStep context) (acc, rs, re)).2.1,
          (rest.foldl (groupRangesStep context) (acc, rs, re)).2.2)] =
        acc ++ groupRangesRec context rs re rest := by
  intro rest
  induction rest with
  | nil =>
    intro acc rs re
    simp [groupRangesRec]
  | cons ci rest ih =>
    intro acc rs re
    simp only [List.foldl_cons, groupRangesStep, groupRangesRec]
    by_cases hgap : ci - re - 1 > context * 2
    · simp only [if_pos hgap]
      rw [ih]
      simp
    · simp only [if_neg hgap]
      exact ih acc rs ci

theorem groupRanges_eq_rec (context c0 : Nat) (rest : List Nat) :
    groupRanges context (c0 :: rest) = groupRangesRec context c0 c0 rest := by
  have h := groupRanges_foldl context rest [] c0 c0
  simpa [groupRanges] using h

theorem groupRangesRec_map_fst (context : Nat) :
    ∀ (rest : List Nat) (rs re : Nat),
      (groupRangesRec context rs re rest).map Prod.fst =
        rs :: (((re :: rest).zip rest).filter
          (fun p => p.2 - p.1 - 1 > context * 2)).map Prod.snd := by
  intro rest
  induction rest with
  | nil =>
    intro rs re
    simp [groupRangesRec]
  | cons ci rest ih =>
    intro rs re
    simp only [groupRangesRec, List.zip_cons_cons]
    by_cases hgap : ci - re - 1 > context * 2
    · rw [if_pos hgap, List.filter_cons_of_pos (by simpa using hgap)]
      simp only [List.map_cons]
      rw [ih ci ci]
    · rw [if_neg hgap, List.filter_cons_of_neg (by simpa using hgap)]
      exact ih rs ci

theorem groupRangesRec_map_snd (context : Nat) :
    ∀ (rest : List Nat) (rs re : Nat),
      (groupRangesRec context rs re rest).map Prod.snd =
        (((re :: rest).zip rest).filter
          (fun p => p.2 - p.1 - 1 > context * 2)).map Prod.fst ++ [(re :: rest).getLastD 0] := by
  intro rest
  induction rest with
  | nil =>
    intro rs re
    simp [groupRangesRec]
  | cons ci rest ih =>
    intro rs re
    simp only [groupRangesRec, List.zip_cons_cons]
    by_cases hgap : ci - re - 1 > context * 2
    · rw [if_pos hgap, List.filter_cons_of_pos (by simpa using hgap)]
      simp only [List.map_cons]
      rw [ih ci ci, List.getLastD_cons 0 ci rest, List.getLastD_cons 0 re (ci :: rest),
        List.getLastD_cons re ci rest]
      simp
    · rw [if_neg hgap, List.filter_cons_of_neg (by simpa using hgap)]
      rw [ih rs ci, List.getLastD_cons 0 ci rest, List.getLastD_cons 0 re (ci :: rest),
        List.getLastD_cons re ci rest]

/-- C8: a new hunk range starts exactly at the successive change-index pairs
whose gap exceeds `2 * context` (the range starts are the head plus the
right components of those boundary pairs, the range ends the left components
plus the last change index); concretely, two single-line changes separated
by 10 unchanged lines give two hunks at context 3 and separated by 2
unchanged lines give one merged hunk. -/
theorem C8_hunk_grouping :
    (∀ (context c0 : Nat) (rest : List Nat),
      (groupRanges context (c0 :: rest)).map Prod.fst =
        c0 :: (boundaryPairs context (c0 :: rest)).map Prod.snd ∧
      (groupRanges context (c0 :: rest)).map Prod.snd =
        (boundaryPairs context (c0 :: rest)).map Prod.fst ++ [(c0 :: rest).getLastD 0]) ∧
    groupRanges 3 (changeIndices
      (tagLines oldGap10 newGap10 (diff_ops oldGap10 newGap10) 0 0)) = [(0, 1), (12, 13)] ∧
    groupRanges 3 (changeIndices
      (tagLines oldGap2 newGap2 (diff_ops oldGap2 newGap2) 0 0)) = [(0, 5)] := by
  refine ⟨?_, by decide, by decide⟩
  intro context c0 rest
  rw [groupRanges_eq_rec]
  exact ⟨groupRangesRec_map_fst context rest c0 c0, groupRangesRec_map_snd context rest c0 c0⟩

theorem groupRangesRec_cons_shape (context : Nat) :
    ∀ (rest : List Nat) (rs re : Nat),
      ∃ e tail, groupRangesRec context rs re rest = (rs, e) :: tail := by
  intro rest
  induction rest with
  | nil => intro rs re; exact ⟨re, [], rfl⟩
  | cons ci rest ih =>
    intro rs re
    simp only [groupRangesRec]
    by_cases hgap : ci - re - 1 > context * 2
    · rw [if_pos hgap]
      exact ⟨re, _, rfl⟩
    · rw [if_neg hgap]
      exact ih rs ci

theorem groupRangesRec_chain (context : Nat) :
    ∀ (rest : List Nat) (rs re : Nat), rs ≤ re → List.Chain' (· < ·) (re :: rest) →
      List.Chain' (fun x y : Nat × Nat =>
        x.1 ≤ x.2 ∧ x.2 < y.1 ∧ context * 2 < y.1 - x.2 - 1)
        (groupRangesRec context rs re rest) := by
  intro rest
  induction rest with
  | nil =>
    intro rs re hle hchain
    simp [groupRangesRec]
  | cons ci rest ih =>
    intro rs re hle hchain
    rw [List.chain'_cons] at hchain
    obtain ⟨hreci, hchain⟩ := hchain
    simp only [groupRangesRec]
    by_cases hgap : ci - re - 1 > context * 2
    · rw [if_pos hgap]
      obtain ⟨e, tail, hshape⟩ := groupRangesRec_cons_shape context rest ci ci
      rw [hshape]
      rw [List.chain'_cons]
      refine ⟨⟨hle, hreci, hgap⟩, ?_⟩
      rw [← hshape]
      exact ih ci ci le_rfl hchain
    · rw [if_neg hgap]
      exact ih rs ci (by omega) hchain

theorem changeIndices_sorted (tagged : List TaggedLine) :
    List.Pairwise (· < ·) (changeIndices tagged) := by
  unfold changeIndices
  have hsub : ((tagged.enum.filter (fun p => p.2.kind ≠ LineKind.Context)).map
      (fun p => p.1)).Sublist (tagged.enum.map Prod.fst) :=
    List.Sublist.map _ (List.filter_sublist _)
  rw [List.enum_map_fst] at hsub
  exact (List.pairwise_lt_range tagged.length).sublist hsub

/-- C9: for all inputs, the hunk emission windows computed by the formatter
pipeline appear with strictly ascending start indices and never overlap
(each window ends no later than the next begins). -/
theorem C9_hunk_ordering (old new label : String) :
    List.Chain' (fun w1 w2 : Nat × Nat => w1.1 < w2.1 ∧ w1.2 ≤ w2.1)
      ((groupRanges 3 (changeIndices (tagLines (rustLines old) (rustLines new)
          (diff_ops (rustLines old) (rustLines new)) 0 0))).map
        (hunkWindow 3 (tagLines (rustLines old) (rustLines new)
          (diff_ops (rustLines old) (rustLines new)) 0 0).length)) := by
  have hlabel : label = label := rfl
  cases hcis : changeIndices (tagLines (rustLines old) (rustLines new)
      (diff_ops (rustLines old) (rustLines new)) 0 0) with
  | nil => simp [groupRanges]
  | cons c0 rest =>
    have hsorted : List.Chain' (· < ·) (c0 :: rest) := by
      rw [← hcis]
      exact List.chain'_iff_pairwise.mpr (changeIndices_sorted _)
    rw [groupRanges_eq_rec, List.chain'_map]
    refine (groupRangesRec_chain 3 rest c0 c0 le_rfl hsorted).imp ?_
    rintro ⟨s1, e1⟩ ⟨s2, e2⟩ ⟨hse, hlt, hgap⟩
    unfold hunkWindow
    simp only
    constructor
    · omega
    · exact le_trans (Nat.min_le_left _ _) (by omega)

/-! ## Line decomposition and the trailing-newline behavior -/

theorem splitInclusiveAux_nil (acc : List Char) :
    splitInclusiveAux acc [] = if acc.isEmpty then [] else [acc.reverse] := rfl

theorem splitInclusiveAux_cons (acc : List Char) (ch : Char) (cs : List Char) :
    splitInclusiveAux acc (ch :: cs) =
      if ch = '\n' then (acc.reverse ++ [ch]) :: splitInclusiveAux [] cs
      else splitInclusiveAux (ch :: acc) cs := rfl

theorem stripLineEnd_eq (l : List Char) :
    stripLineEnd l =
      match l.reverse with
      | [] => l
      | c :: rest =>
        if c = '\n' then
          match rest with
          | d :: rest2 => if d = '\r' then rest2.reverse else rest.reverse
          | [] => rest.reverse
        else l := rfl

theorem splitInclusiveAux_snoc_nl (c : Char) (hn : c ≠ '\n') :
    ∀ (cs acc : List Char), cs.getLast? = some c →
      ∃ pre last, splitInclusiveAux acc cs = pre ++ [last] ∧
        splitInclusiveAux acc (cs ++ ['\n']) = pre ++ [last ++ ['\n']] ∧
        last.getLast? = some c := by
  intro cs
  induction cs with
  | nil =>
    intro acc h
    simp at h
  | cons c' cs ih =>
    intro acc h
    cases cs with
    | nil =>
      simp at h
      subst h
      refine ⟨[], (c' :: acc).reverse, ?_, ?_, ?_⟩
      · rw [splitInclusiveAux_cons, if_neg hn, splitInclusiveAux_nil]
        simp
      · rw [List.singleton_append, splitInclusiveAux_cons, if_neg hn, splitInclusiveAux_cons,
          if_pos rfl, splitInclusiveAux_nil]
        simp
      · rw [List.reverse_cons]
        exact List.getLast?_concat _
    | cons d cs' =>
      rw [List.getLast?_cons_cons] at h
      by_cases hc' : c' = '\n'
      · subst hc'
        obtain ⟨pre, last, h1, h2, h3⟩ := ih [] h
        refine ⟨(acc.reverse ++ ['\n']) :: pre, last, ?_, ?_, h3⟩
        · rw [splitInclusiveAux_cons, if_pos rfl, h1]
          simp
        · rw [List.cons_append, splitInclusiveAux_cons, if_pos rfl, h2]
          simp
      · obtain ⟨pre, last, h1, h2, h3⟩ := ih (c' :: acc) h
        refine ⟨pre, last, ?_, ?_, h3⟩
        · rw [splitInclusiveAux_cons, if_neg hc', h1]
        · rw [List.cons_append, splitInclusiveAux_cons, if_neg hc', h2]

theorem stripLineEnd_append_nl (l : List Char) (c : Char) (hl : l.getLast? = some c)
    (hr : c ≠ '\r') : stripLineEnd (l ++ ['\n']) = l := by
  rw [stripLineEnd_eq]
  have hsc : (l ++ ['\n']).reverse = '\n' :: l.reverse := by simp
  rw [hsc]
  cases hrev : l.reverse with
  | nil =>
    have : l = [] := by simpa using congrArg List.reverse hrev
    subst this
    simp at hl
  | cons hd tl =>
    have hhd : hd = c := by
      have h0 := List.head?_reverse l
      rw [hrev, hl] at h0
      simpa using h0
    rw [hhd]
    have hrev2 : l.reverse = c :: tl := by
      rw [← hhd]
      exact hrev
    have hgoal : (c :: tl).reverse = l := by
      rw [← hrev2, List.reverse_reverse]
    simp [hr, hgoal]

theorem stripLineEnd_no_nl (l : List Char) (c : Char) (hl : l.getLast? = some c)
    (hn : c ≠ '\n') : stripLineEnd l = l := by
  rw [stripLineEnd_eq]
  cases hrev : l.reverse with
  | nil => rfl
  | cons hd tl =>
    have hhd : hd = c := by
      have h0 := List.head?_reverse l
      rw [hrev, hl] at h0
      simpa using h0
    rw [hhd]
    simp [hn]

theorem rustLines_append_nl (s : String) (c : Char) (hlast : s.data.getLast? = some c)
    (hn : c ≠ '\n') (hr : c ≠ '\r') :
    rustLines (s ++ "\n") = rustLines s := by
  unfold rustLines
  have hdata : (s ++ "\n").data = s.data ++ ['\n'] := by
    rw [String.data_append]
  rw [hdata]
  obtain ⟨pre, last, hbase, happ, hlast'⟩ := splitInclusiveAux_snoc_nl c hn s.data [] hlast
  rw [hbase, happ]
  simp only [List.map_append, List.map_cons, List.map_nil]
  congr 2
  rw [stripLineEnd_append_nl last c hlast' hr, stripLineEnd_no_nl last c hlast' hn]

/-- Counterexample to C10 as stated: `"a\r"` is non-empty and does not end
in a newline, yet diffing it against itself plus a trailing newline emits a
hunk, because Rust `str::lines` strips the `"\r"` of `"a\r\n"` but keeps the
one of `"a\r"`. -/
theorem C10_counterexample :
    "a\x0d" ≠ "" ∧ ("a\x0d").data.getLast? ≠ some '\n' ∧
    unified_diff "a\x0d" ("a\x0d" ++ "\n") "f" ≠ diffHeader "f" := by
  refine ⟨by decide, by decide, ?_⟩
  decide

/-- C10 as amended: `unified_diff` depends on its inputs only through their
`str::lines` decomposition, and appending a final newline to a non-empty
string that ends in neither `'\n'` nor `'\r'` leaves the diff header-only. -/
theorem C10_line_insensitivity (s label : String) (h0 : s ≠ "")
    (hn : s.data.getLast? ≠ some '\n') (hr : s.data.getLast? ≠ some '\r') :
    (∀ old1 old2 new1 new2 lab : String, rustLines old1 = rustLines old2 →
      rustLines new1 = rustLines new2 →
      unified_diff old1 new1 lab = unified_diff old2 new2 lab) ∧
    unified_diff s (s ++ "\n") label = diffHeader label := by
  constructor
  · intro old1 old2 new1 new2 lab ho hne
    unfold unified_diff
    rw [ho, hne]
  · have hne : s.data ≠ [] := by
      intro hd
      exact h0 (String.ext (by simpa using hd))
    cases hc : s.data.getLast? with
    | none => exact absurd (List.getLast?_eq_none_iff.mp hc) hne
    | some c =>
      have hcn : c ≠ '\n' := by
        intro hcc
        subst hcc
        exact hn hc
      have hcr : c ≠ '\r' := by
        intro hcc
        subst hcc
        exact hr hc
      exact unified_diff_of_lines_eq s (s ++ "\n") label
        (rustLines_append_nl s c hc hcn hcr).symm

/-- Witness instantiating `C10_line_insensitivity` at `s = "a"`. -/
theorem C10_witness :
    unified_diff "a" ("a" ++ "\n") "f" = diffHeader "f" ∧
    unified_diff "b" "c" "g" = unified_diff "b" "c" "g" :=
  ⟨(C10_line_insensitivity "a" "f" (by decide) (by decide) (by decide)).2,
   (C10_line_insensitivity "a" "f" (by decide) (by decide) (by decide)).1
     "b" "b" "c" "c" "g" rfl rfl⟩

/-! ## Resolver: unfolding equations and fuel bookkeeping -/

theorem resolveRec_zero (reg : Registry) (name : String) (st : List String × List String) :
    resolveRec reg 0 name st = st := rfl

theorem resolveRec_succ_mem (reg : Registry) (fuel : Nat) (name : String)
    (st : List String × List String) (h : name ∈ st.2) :
    resolveRec reg (fuel + 1) name st = st := by
  simp [resolveRec, h]

theorem resolveRec_succ_found (reg : Registry) (fuel : Nat) (name : String)
    (st : List String × List String) (h : name ∉ st.2) (c : ComponentMeta)
    (hf : reg.find name = some c) :
    resolveRec reg (fuel + 1) name st =
      ((c.dependencies.foldl (fun s d => resolveRec reg fuel d s) (st.1, name :: st.2)).1
          ++ [name],
        (c.dependencies.foldl (fun s d => resolveRec reg fuel d s) (st.1, name :: st.2)).2) := by
  simp [resolveRec, h, hf]

theorem resolveRec_succ_missing (reg : Registry) (fuel : Nat) (name : String)
    (st : List String × List String) (h : name ∉ st.2) (hf : reg.find name = none) :
    resolveRec reg (fuel + 1) name st = (st.1 ++ [name], name :: st.2) := by
  simp [resolveRec, h, hf]

theorem countMissing_le (reg : Registry) (v : List String) :
    countMissing reg v ≤ reg.components.length := by
  unfold countMissing
  calc ((reg.components.map (fun c => c.name)).filter (fun n => decide (n ∉ v))).length
      ≤ (reg.components.map (fun c => c.name)).length :=
        (List.filter_sublist _).length_le
    _ = reg.components.length := List.length_map _ _

theorem countMissing_mono (reg : Registry) {v v' : List String} (h : ∀ x ∈ v, x ∈ v') :
    countMissing reg v' ≤ countMissing reg v := by
  unfold countMissing
  apply List.Sublist.length_le
  apply List.monotone_filter_right
  intro a ha
  simp only [decide_eq_true_eq] at ha ⊢
  intro hav
  exact ha (h a hav)

theorem countMissing_insert_lt (reg : Registry) (v : List String) (name : String)
    (hmem : name ∈ reg.components.map (fun c => c.name)) (hnv : name ∉ v) :
    countMissing reg (name :: v) < countMissing reg v := by
  unfold countMissing
  have heq : (reg.components.map (fun c => c.name)).filter (fun n => decide (n ∉ name :: v)) =
      ((reg.components.map (fun c => c.name)).filter (fun n => decide (n ∉ v))).filter
        (fun n => decide (n ≠ name)) := by
    rw [List.filter_filter]
    apply List.filter_congr
    intro a ha
    by_cases h1 : a = name <;> by_cases h2 : a ∈ v <;> simp [h1, h2]
  rw [heq]
  refine List.length_filter_lt_length_iff_exists.mpr
    ⟨name, List.mem_filter.mpr ⟨hmem, by simpa using hnv⟩, by simp⟩

theorem resolveFold_mono (reg : Registry) (fuel : Nat)
    (ih : ∀ name st, (∀ x ∈ st.2, x ∈ (resolveRec reg fuel name st).2) ∧
      ∃ Δ, (resolveRec reg fuel name st).1 = st.1 ++ Δ) :
    ∀ (ds : List String) (st : List String × List String),
      (∀ x ∈ st.2, x ∈ (ds.foldl (fun s d => resolveRec reg fuel d s) st).2) ∧
      ∃ Δ, (ds.foldl (fun s d => resolveRec reg fuel d s) st).1 = st.1 ++ Δ := by
  intro ds
  induction ds with
  | nil => intro st; exact ⟨fun x hx => hx, [], by simp⟩
  | cons d ds ihd =>
    intro st
    simp only [List.foldl_cons]
    obtain ⟨h1, Δ1, hd1⟩ := ih d st
    obtain ⟨h2, Δ2, hd2⟩ := ihd (resolveRec reg fuel d st)
    exact ⟨fun x hx => h2 x (h1 x hx), Δ1 ++ Δ2, by rw [hd2, hd1, List.append_assoc]⟩

theorem resolveRec_mono (reg : Registry) :
    ∀ fuel name st, (∀ x ∈ st.2, x ∈ (resolveRec reg fuel name st).2) ∧
      ∃ Δ, (resolveRec reg fuel name st).1 = st.1 ++ Δ := by
  intro fuel
  induction fuel with
  | zero => intro name st; exact ⟨fun x hx => hx, [], by simp [resolveRec_zero]⟩
  | succ f ih =>
    intro name st
    by_cases hv : name ∈ st.2
    · rw [resolveRec_succ_mem reg f name st hv]
      exact ⟨fun x hx => hx, [], by simp⟩
    · cases hf : reg.find name with
      | none =>
        rw [resolveRec_succ_missing reg f name st hv hf]
        exact ⟨fun x hx => List.mem_cons_of_mem _ hx, [name], rfl⟩
      | some c =>
        rw [resolveRec_succ_found reg f name st hv c hf]
        obtain ⟨h1, Δ1, hd1⟩ := resolveFold_mono reg f ih c.dependencies (st.1, name :: st.2)
        constructor
        · intro x hx
          exact h1 x (List.mem_cons_of_mem _ hx)
        · exact ⟨Δ1 ++ [name], by rw [hd1]; simp⟩

theorem countMissing_zero_find (reg : Registry) (v : List String)
    (h : countMissing reg v = 0) (name : String) (hnv : name ∉ v) :
    reg.find name = none := by
  cases hf : reg.find name with
  | none => rfl
  | some c =>
    exfalso
    have hc : c ∈ reg.components := List.mem_of_find?_eq_some hf
    have hcn : c.name = name := by
      have := List.find?_some hf
      simpa using this
    have hmem : name ∈ reg.components.map (fun c => c.name) :=
      List.mem_map.mpr ⟨c, hc, hcn⟩
    unfold countMissing at h
    rw [List.length_eq_zero] at h
    have := List.filter_eq_nil_iff.mp h name hmem
    simp [hnv] at this

theorem resolveFold_fuel_irrel (reg : Registry) (a b : Nat)
    (hrec : ∀ name st, countMissing reg st.2 + 1 ≤ a + 1 →
      countMissing reg st.2 + 1 ≤ b + 1 →
      resolveRec reg (a + 1) name st = resolveRec reg (b + 1) name st) :
    ∀ (ds : List String) (st : List String × List String),
      countMissing reg st.2 + 1 ≤ a + 1 → countMissing reg st.2 + 1 ≤ b + 1 →
      ds.foldl (fun s d => resolveRec reg (a + 1) d s) st =
        ds.foldl (fun s d => resolveRec reg (b + 1) d s) st := by
  intro ds
  induction ds with
  | nil => intro st h1 h2; rfl
  | cons d ds ihd =>
    intro st h1 h2
    simp only [List.foldl_cons]
    rw [← hrec d st h1 h2]
    have hmon := (resolveRec_mono reg (a + 1) d st).1
    have hcm := countMissing_mono reg hmon
    exact ihd (resolveRec reg (a + 1) d st) (by omega) (by omega)

theorem resolveRec_fuel_irrel (reg : Registry) :
    ∀ (a b : Nat) (name : String) (st : List String × List String),
      countMissing reg st.2 + 1 ≤ a + 1 → countMissing reg st.2 + 1 ≤ b + 1 →
      resolveRec reg (a + 1) name st = resolveRec reg (b + 1) name st := by
  intro a
  induction a with
  | zero =>
    intro b name st h1 h2
    have hz : countMissing reg st.2 = 0 := by omega
    by_cases hv : name ∈ st.2
    · rw [resolveRec_succ_mem, resolveRec_succ_mem] <;> exact hv
    · have hf : reg.find name = none := countMissing_zero_find reg st.2 hz name hv
      cases b with
      | zero => rfl
      | succ b =>
        rw [resolveRec_succ_missing reg 0 name st hv hf,
          resolveRec_succ_missing reg (b + 1) name st hv hf]
  | succ a iha =>
    intro b name st h1 h2
    cases b with
    | zero =>
      have hz : countMissing reg st.2 = 0 := by omega
      by_cases hv : name ∈ st.2
      · rw [resolveRec_succ_mem, resolveRec_succ_mem] <;> exact hv
      · have hf : reg.find name = none := countMissing_zero_find reg st.2 hz name hv
        rw [resolveRec_succ_missing reg (a + 1) name st hv hf,
          resolveRec_succ_missing reg 0 name st hv hf]
    | succ b =>
      by_cases hv : name ∈ st.2
      · rw [resolveRec_succ_mem, resolveRec_succ_mem] <;> exact hv
      · cases hf : reg.find name with
        | none =>
          rw [resolveRec_succ_missing reg (a + 1) name st hv hf,
            resolveRec_succ_missing reg (b + 1) name st hv hf]
        | some c =>
          rw [resolveRec_succ_found reg (a + 1) name st hv c hf,
            resolveRec_succ_found reg (b + 1) name st hv c hf]
          have hnmem : name ∈ reg.components.map (fun c => c.name) := by
            have hc : c ∈ reg.components := List.mem_of_find?_eq_some hf
            have hcn : c.name = name := by
              have := List.find?_some hf
              simpa using this
            exact List.mem_map.mpr ⟨c, hc, hcn⟩
          have hlt := countMissing_insert_lt reg st.2 name hnmem hv
          have hfold := resolveFold_fuel_irrel reg a b (fun n' st' ha hb => iha b n' st' ha hb)
            c.dependencies (st.1, name :: st.2) (by simp; omega) (by simp; omega)
          rw [hfold]

/-! ## Resolver: the dependency-first invariant -/

theorem indexOf_append_not_mem {a : String} : ∀ {l : List String}, a ∉ l →
    List.indexOf a (l ++ [a]) = l.length := by
  intro l
  induction l with
  | nil => intro h; simp
  | cons b l ih =>
    intro h
    simp only [List.mem_cons, not_or] at h
    simp only [List.cons_append, List.length_cons]
    rw [List.indexOf_cons_ne _ (fun hc => h.1 hc.symm), ih h.2]

theorem resolveFold_spec (reg : Registry) (fuel : Nat) (ih : ResolveSpec reg fuel) :
    ∀ (ds : List String) (st : List String × List String) (A : List String),
      countMissing reg st.2 + 1 ≤ fuel →
      ResolverInv reg st A →
      (∀ d ∈ ds, ∀ a ∈ A, Relation.ReflTransGen (depRel reg) d a) →
      FoldOut reg ds st (ds.foldl (fun s d => resolveRec reg fuel d s) st) A := by
  intro ds
  induction ds with
  | nil =>
    intro st A h1 h2 h3
    exact ⟨h2, ⟨[], by simp, by simp⟩, fun x hx => hx, by simp⟩
  | cons d ds ihd =>
    intro st A h1 h2 h3
    simp only [List.foldl_cons]
    have out1 := ih d st A h1 h2 (h3 d (by simp))
    have hcm1 : countMissing reg (resolveRec reg fuel d st).2 + 1 ≤ fuel := by
      have := countMissing_mono reg out1.visMono
      omega
    have out2 := ihd (resolveRec reg fuel d st) A hcm1 out1.inv
      (fun d' hd' a ha => h3 d' (List.mem_cons_of_mem _ hd') a ha)
    refine ⟨out2.inv, ?_, fun x hx => out2.visMono x (out1.visMono x hx), ?_⟩
    · obtain ⟨Δ1, hΔ1, hprop1⟩ := out1.delta
      obtain ⟨Δ2, hΔ2, hprop2⟩ := out2.delta
      refine ⟨Δ1 ++ Δ2, by rw [hΔ2, hΔ1, List.append_assoc], ?_⟩
      intro x hx
      rcases List.mem_append.mp hx with hx1 | hx2
      · obtain ⟨hnv, hreach⟩ := hprop1 x hx1
        exact ⟨hnv, d, by simp, hreach⟩
      · obtain ⟨hnv1, d', hd', hreach⟩ := hprop2 x hx2
        exact ⟨fun hxv => hnv1 (out1.visMono x hxv), d', List.mem_cons_of_mem _ hd', hreach⟩
    · intro d' hd'
      rcases List.mem_cons.mp hd' with rfl | hd'
      · exact out2.visMono d' out1.nameVis
      · exact out2.depsVis d' hd'

theorem resolveRec_spec_holds (reg : Registry) : ∀ fuel, ResolveSpec reg fuel := by
  intro fuel
  induction fuel with
  | zero =>
    intro name st A hfuel hinv hA
    exact absurd hfuel (by omega)
  | succ f ih =>
    intro name st A hfuel hinv hA
    by_cases hv : name ∈ st.2
    · rw [resolveRec_succ_mem reg f name st hv]
      exact ⟨hinv, ⟨[], by simp, by simp⟩, fun x hx => hx, hv⟩
    · have hnres : name ∉ st.1 := fun hmem => hv ((hinv.visEq name).mpr (Or.inl hmem))
      cases hf : reg.find name with
      | none =>
        rw [resolveRec_succ_missing reg f name st hv hf]
        refine ⟨⟨?_, ?_, ?_⟩, ⟨[name], rfl, ?_⟩, ?_, ?_⟩
        · rw [List.nodup_append]
          exact ⟨hinv.nodup, List.nodup_singleton _, by rwa [List.disjoint_singleton]⟩
        · intro x
          have h0 := hinv.visEq x
          simp only [List.mem_append, List.mem_singleton, List.mem_cons] at h0 ⊢
          tauto
        · intro N hN D hD
          rcases List.mem_append.mp hN with hN1 | hNname
          · rcases hinv.ordered N hN1 D hD with ⟨hD1, hidx⟩ | ⟨hDA, hre⟩ | hcyc
            · refine Or.inl ⟨List.mem_append_left _ hD1, ?_⟩
              rw [List.indexOf_append_of_mem hD1, List.indexOf_append_of_mem hN1]
              exact hidx
            · exact Or.inr (Or.inl ⟨hDA, hre⟩)
            · exact Or.inr (Or.inr hcyc)
          · have hNn : N = name := by simpa using hNname
            subst hNn
            obtain ⟨c', hf', -⟩ := hD
            rw [hf] at hf'
            exact Option.noConfusion hf'
        · intro x hx
          have hxn : x = name := by simpa using hx
          subst hxn
          exact ⟨hv, Relation.ReflTransGen.refl⟩
        · intro x hx
          exact List.mem_cons_of_mem _ hx
        · exact List.mem_cons_self _ _
      | some c =>
        rw [resolveRec_succ_found reg f name st hv c hf]
        have hnmem : name ∈ reg.components.map (fun x => x.name) := by
          have hc : c ∈ reg.components := List.mem_of_find?_eq_some hf
          have hcn : c.name = name := by
            have := List.find?_some hf
            simpa using this
          exact List.mem_map.mpr ⟨c, hc, hcn⟩
        have hcm1 : countMissing reg (name :: st.2) + 1 ≤ f := by
          have := countMissing_insert_lt reg st.2 name hnmem hv
          omega
        have hinv1 : ResolverInv reg (st.1, name :: st.2) (name :: A) := by
          refine ⟨hinv.nodup, ?_, ?_⟩
          · intro x
            have h0 := hinv.visEq x
            simp only [List.mem_cons] at h0 ⊢
            tauto
          · intro N hN D hD
            rcases hinv.ordered N hN D hD with h | ⟨hDA, hre⟩ | hcyc
            · exact Or.inl h
            · exact Or.inr (Or.inl ⟨List.mem_cons_of_mem _ hDA, hre⟩)
            · exact Or.inr (Or.inr hcyc)
        have hA1 : ∀ d ∈ c.dependencies, ∀ a ∈ name :: A,
            Relation.ReflTransGen (depRel reg) d a := by
          intro d hd a ha
          have hdep : depRel reg d name := ⟨c, hf, hd⟩
          rcases List.mem_cons.mp ha with rfl | ha
          · exact Relation.ReflTransGen.single hdep
          · exact Relation.ReflTransGen.head hdep (hA a ha)
        have hout := resolveFold_spec reg f ih c.dependencies (st.1, name :: st.2)
          (name :: A) hcm1 hinv1 hA1
        obtain ⟨Δ2, hΔ2, hprop2⟩ := hout.delta
        have hnΔ2 : name ∉ Δ2 := by
          intro hmem
          exact (hprop2 name hmem).1 (List.mem_cons_self _ _)
        have hnst2 : name ∉
            (c.dependencies.foldl (fun s d => resolveRec reg f d s) (st.1, name :: st.2)).1 := by
          rw [hΔ2]
          simp only [List.mem_append]
          rintro (h | h)
          · exact hnres h
          · exact hnΔ2 h
        refine ⟨⟨?_, ?_, ?_⟩, ?_, ?_, ?_⟩
        · rw [List.nodup_append]
          exact ⟨hout.inv.nodup, List.nodup_singleton _, by rwa [List.disjoint_singleton]⟩
        · intro x
          have h0 := hout.inv.visEq x
          simp only [List.mem_append, List.mem_singleton, List.mem_cons] at h0 ⊢
          tauto
        · intro N hN D hD
          rcases List.mem_append.mp hN with hN2 | hNname
          · rcases hout.inv.ordered N hN2 D hD with ⟨hD2, hidx⟩ | ⟨hDmem, hre⟩ | hcyc
            · refine Or.inl ⟨List.mem_append_left _ hD2, ?_⟩
              rw [List.indexOf_append_of_mem hD2, List.indexOf_append_of_mem hN2]
              exact hidx
            · rcases List.mem_cons.mp hDmem with rfl | hDA
              · exact Or.inr (Or.inr (Relation.TransGen.trans_left
                  (Relation.TransGen.single hD) hre))
              · exact Or.inr (Or.inl ⟨hDA, hre⟩)
            · exact Or.inr (Or.inr hcyc)
          · have hNn : N = name := by simpa using hNname
            subst hNn
            obtain ⟨c', hf', hDdep⟩ := hD
            rw [hf] at hf'
            have hcc : c = c' := by injection hf'
            subst hcc
            have hDvis := hout.depsVis D hDdep
            rcases (hout.inv.visEq D).mp hDvis with hD2 | hDmem
            · refine Or.inl ⟨List.mem_append_left _ hD2, ?_⟩
              rw [List.indexOf_append_of_mem hD2, indexOf_append_not_mem hnst2]
              exact List.indexOf_lt_length.mpr hD2
            · rcases List.mem_cons.mp hDmem with rfl | hDA
              · exact Or.inr (Or.inr (Relation.TransGen.single ⟨c, hf, hDdep⟩))
              · exact Or.inr (Or.inl ⟨hDA, hA D hDA⟩)
        · refine ⟨Δ2 ++ [name], ?_, ?_⟩
          · rw [hΔ2, List.append_assoc]
          · intro x hx
            rcases List.mem_append.mp hx with hx2 | hxn
            · obtain ⟨hnv2, d, hd, hre⟩ := hprop2 x hx2
              exact ⟨fun hxv => hnv2 (List.mem_cons_of_mem _ hxv),
                Relation.ReflTransGen.trans hre (Relation.ReflTransGen.single ⟨c, hf, hd⟩)⟩
            · have hxname : x = name := by simpa using hxn
              subst hxname
              exact ⟨hv, Relation.ReflTransGen.refl⟩
        · intro x hx
          exact hout.visMono x (List.mem_cons_of_mem _ hx)
        · exact hout.visMono name (List.mem_cons_self _ _)

/-! ## Resolver: top-level properties -/

theorem resolveTop_spec (reg : Registry) :
    ∀ (names : List String) (st : List String × List String) (S : List String),
      ResolverInv reg st [] →
      (∀ x ∈ st.1, ∃ r ∈ S, Relation.ReflTransGen (depRel reg) x r) →
      ResolverInv reg (names.foldl (fun s n => resolveRec reg (resolveFuel reg) n s) st) [] ∧
      (∀ x ∈ (names.foldl (fun s n => resolveRec reg (resolveFuel reg) n s) st).1,
        ∃ r ∈ S ++ names, Relation.ReflTransGen (depRel reg) x r) ∧
      (∀ n ∈ names, n ∈ (names.foldl (fun s n => resolveRec reg (resolveFuel reg) n s) st).1) := by
  intro names
  induction names with
  | nil =>
    intro st S hinv hreach
    refine ⟨hinv, ?_, by simp⟩
    simpa using hreach
  | cons n names ih =>
    intro st S hinv hreach
    simp only [List.foldl_cons]
    have hfuel : countMissing reg st.2 + 1 ≤ resolveFuel reg := by
      have := countMissing_le reg st.2
      unfold resolveFuel
      omega
    have out := resolveRec_spec_holds reg (resolveFuel reg) n st [] hfuel hinv (by simp)
    obtain ⟨Δ, hΔ, hprop⟩ := out.delta
    have hreach1 : ∀ x ∈ (resolveRec reg (resolveFuel reg) n st).1,
        ∃ r ∈ S ++ [n], Relation.ReflTransGen (depRel reg) x r := by
      intro x hx
      rw [hΔ] at hx
      rcases List.mem_append.mp hx with hx1 | hx2
      · obtain ⟨r, hr, hre⟩ := hreach x hx1
        exact ⟨r, List.mem_append_left _ hr, hre⟩
      · exact ⟨n, by simp, (hprop x hx2).2⟩
    have hn1 : n ∈ (resolveRec reg (resolveFuel reg) n st).1 := by
      have := (out.inv.visEq n).mp out.nameVis
      simpa using this
    obtain ⟨hinv2, hreach2, hmem2⟩ := ih (resolveRec reg (resolveFuel reg) n st) (S ++ [n])
      out.inv hreach1
    refine ⟨hinv2, ?_, ?_⟩
    · intro x hx
      obtain ⟨r, hr, hre⟩ := hreach2 x hx
      refine ⟨r, ?_, hre⟩
      simp only [List.append_assoc, List.singleton_append] at hr
      exact hr
    · intro n' hn'
      rcases List.mem_cons.mp hn' with rfl | hn'
      · -- n' = n: preserved through the rest of the fold
        have hmono := resolveFold_mono reg (resolveFuel reg)
          (fun name st => ⟨(resolveRec_mono reg (resolveFuel reg) name st).1,
            (resolveRec_mono reg (resolveFuel reg) name st).2⟩) names
          (resolveRec reg (resolveFuel reg) n' st)
        obtain ⟨-, Δ', hΔ'⟩ := hmono
        rw [hΔ']
        exact List.mem_append_left _ hn1
      · exact hmem2 n' hn'

/-- C3 counterexample: in the two-cycle registry, `cycA` is a declared
dependency of `cycB`, `cycB` is in the result of `resolve(["cycA"])`, but
`cycA` appears after `cycB`. -/
theorem C3_counterexample :
    depRel regCyc "cycA" "cycB" ∧
    "cycB" ∈ regCyc.resolve_dependencies ["cycA"] ∧
    ¬ (List.indexOf "cycA" (regCyc.resolve_dependencies ["cycA"]) <
       List.indexOf "cycB" (regCyc.resolve_dependencies ["cycA"])) := by
  refine ⟨⟨⟨"cycB", "0.1.0", "", ">=0.2.0", [], ["cycA"], ComponentCategory.Input⟩,
    by decide, by decide⟩, by decide, by decide⟩

/-- C3 as amended: the resolver output contains no duplicate names for every
registry and every request, and for registries whose dependency graph is
acyclic every declared dependency of a resolved name appears strictly before
it. -/
theorem C3_resolver_ordering (reg : Registry) (names : List String) :
    (reg.resolve_dependencies names).Nodup ∧
    (Acyclic reg → ∀ N ∈ reg.resolve_dependencies names, ∀ D, depRel reg D N →
      D ∈ reg.resolve_dependencies names ∧
      List.indexOf D (reg.resolve_dependencies names) <
        List.indexOf N (reg.resolve_dependencies names)) := by
  have hinv0 : ResolverInv reg ([], []) [] := ⟨List.nodup_nil, by simp, by simp⟩
  obtain ⟨hinv, -, -⟩ := resolveTop_spec reg names ([], []) [] hinv0 (by simp)
  refine ⟨hinv.nodup, ?_⟩
  intro hacyc N hN D hD
  rcases hinv.ordered N hN D hD with ⟨h1, h2⟩ | ⟨h1, -⟩ | hcyc
  · exact ⟨h1, h2⟩
  · exact absurd h1 (List.not_mem_nil D)
  · exact absurd hcyc (hacyc D)

theorem regToggle_depRel (d n : String) (h : depRel regToggle d n) :
    d = "toggle" ∧ n = "toggle_group" := by
  obtain ⟨c, hf, hd⟩ := h
  unfold Registry.find regToggle at hf
  by_cases h1 : n = "toggle_group"
  · subst h1
    rw [List.find?_cons_of_pos _ (by simp)] at hf
    injection hf with hc
    subst hc
    simp only [List.mem_singleton] at hd
    exact ⟨hd, rfl⟩
  · rw [List.find?_cons_of_neg _ (by simpa using fun hc => h1 hc.symm)] at hf
    by_cases h2 : n = "toggle"
    · subst h2
      rw [List.find?_cons_of_pos _ (by simp)] at hf
      injection hf with hc
      subst hc
      simp at hd
    · rw [List.find?_cons_of_neg _ (by simpa using fun hc => h2 hc.symm)] at hf
      exact Option.noConfusion hf

theorem regToggle_acyclic : Acyclic regToggle := by
  intro x hx
  have key : ∀ a b, Relation.TransGen (depRel regToggle) a b →
      a = "toggle" ∧ b = "toggle_group" := by
    intro a b h
    induction h with
    | single h => exact regToggle_depRel _ _ h
    | tail h1 h2 ih =>
      have h3 := regToggle_depRel _ _ h2
      exact absurd (ih.2.symm.trans h3.1) (by decide)
  have h := key x x hx
  exact absurd (h.1.symm.trans h.2) (by decide)

/-- Witness instantiating `C3_resolver_ordering` on the acyclic
toggle/toggle_group registry; the result is Scenario 3's
`["toggle", "toggle_group"]`. -/
theorem C3_witness :
    (regToggle.resolve_dependencies ["toggle_group"]).Nodup ∧
    ("toggle" ∈ regToggle.resolve_dependencies ["toggle_group"] ∧
      List.indexOf "toggle" (regToggle.resolve_dependencies ["toggle_group"]) <
        List.indexOf "toggle_group" (regToggle.resolve_dependencies ["toggle_group"])) ∧
    regToggle.resolve_dependencies ["toggle_group"] = ["toggle", "toggle_group"] :=
  ⟨(C3_resolver_ordering regToggle ["toggle_group"]).1,
   (C3_resolver_ordering regToggle ["toggle_group"]).2 regToggle_acyclic "toggle_group"
     (by decide) "toggle"
     ⟨⟨"toggle_group", "0.1.0", "", ">=0.2.0", ["toggle_group.rs"], ["toggle"],
        ComponentCategory.Input⟩, by decide, by decide⟩,
   by decide⟩

/-- C7: a name absent from the registry — whether requested or a declared
dependency reached during resolution (that is, present in the output) — is
not an error: it appears exactly once in the output, nothing depends through
it (it is a leaf of the dependency relation), and every output name is
reachable from some requested name through declared dependencies of found
components only, so the unknown name contributes no further names. -/
theorem C7_unknown_names (reg : Registry) (names : List String) (N : String)
    (h2 : reg.find N = none)
    (h1 : N ∈ names ∨ N ∈ reg.resolve_dependencies names) :
    N ∈ reg.resolve_dependencies names ∧
    (reg.resolve_dependencies names).count N = 1 ∧
    (∀ d, ¬ depRel reg d N) ∧
    (∀ x ∈ reg.resolve_dependencies names, ∃ r ∈ names,
      Relation.ReflTransGen (depRel reg) x r) := by
  have hinv0 : ResolverInv reg ([], []) [] := ⟨List.nodup_nil, by simp, by simp⟩
  obtain ⟨hinv, hreach, hmem⟩ := resolveTop_spec reg names ([], []) [] hinv0 (by simp)
  have hN : N ∈ reg.resolve_dependencies names := by
    rcases h1 with h1 | h1
    · exact hmem N h1
    · exact h1
  refine ⟨hN, List.count_eq_one_of_mem hinv.nodup hN, ?_, ?_⟩
  · rintro d ⟨c, hf, -⟩
    rw [h2] at hf
    exact Option.noConfusion hf
  · intro x hx
    have h := hreach x hx
    simpa using h

/-- Witness instantiating `C7_unknown_names` on both sides: the unknown name
`"phantom"` is reached only as a declared dependency of `widget`, and the
unknown name `"ghost"` is requested directly. -/
theorem C7_witness :
    ("phantom" ∈ regGhostDep.resolve_dependencies ["widget"] ∧
      (regGhostDep.resolve_dependencies ["widget"]).count "phantom" = 1 ∧
      regGhostDep.resolve_dependencies ["widget"] = ["phantom", "widget"]) ∧
    (regToggle.resolve_dependencies ["toggle_group", "ghost"]).count "ghost" = 1 :=
  ⟨⟨(C7_unknown_names regGhostDep ["widget"] "phantom" (by decide)
      (Or.inr (by decide))).1,
    (C7_unknown_names regGhostDep ["widget"] "phantom" (by decide)
      (Or.inr (by decide))).2.1,
    by decide⟩,
   (C7_unknown_names regToggle ["toggle_group", "ghost"] "ghost" (by decide)
      (Or.inl (by decide))).2.1⟩

/-! ## Totality: checked indexing never fails, fuel never matters -/

theorem rowStep_length (a : String) :
    ∀ (bs : List String) (prev : List Nat) (left : Nat),
      (rowStep a bs prev left).length = bs.length := by
  intro bs
  induction bs with
  | nil => intro prev left; rfl
  | cons b bs ih =>
    intro prev left
    simp only [rowStep, List.length_cons]
    rw [ih]

theorem lcsRowsRec_length (new : List String) :
    ∀ (rest : List String) (prev : List Nat), (lcsRowsRec new rest prev).length = rest.length := by
  intro rest
  induction rest with
  | nil => intro prev; rfl
  | cons a rest ih =>
    intro prev
    simp only [lcsRowsRec, List.length_cons]
    rw [ih]

theorem lcsRowsRec_row_length (new : List String) :
    ∀ (rest : List String) (prev row : List Nat),
      row ∈ lcsRowsRec new rest prev → row.length = new.length + 1 := by
  intro rest
  induction rest with
  | nil => intro prev row h; simp [lcsRowsRec] at h
  | cons a rest ih =>
    intro prev row h
    simp only [lcsRowsRec, List.mem_cons] at h
    rcases h with rfl | h
    · simp [rowStep_length]
    · exact ih _ row h

theorem lcsRows_length (old new : List String) :
    (lcsRows old new).length = old.length + 1 := by
  simp [lcsRows, lcsRowsRec_length]

theorem lcsRows_row_length (old new : List String) (row : List Nat)
    (h : row ∈ lcsRows old new) : row.length = new.length + 1 := by
  rcases List.mem_cons.mp h with rfl | h
  · simp
  · exact lcsRowsRec_row_length new old _ row h

theorem lcsRows_access (old new : List String) (i j : Nat)
    (hi : i ≤ old.length) (hj : j ≤ new.length) :
    (lcsRows old new)[i]?.bind (fun row => row[j]?) =
      some (tableGet (lcsRows old new) i j) := by
  have hil : i < (lcsRows old new).length := by
    rw [lcsRows_length]
    omega
  rw [List.getElem?_eq_getElem hil, Option.some_bind]
  have hrl := lcsRows_row_length old new _ (List.getElem_mem hil)
  have hjl : j < ((lcsRows old new)[i]).length := by omega
  rw [List.getElem?_eq_getElem hjl]
  unfold tableGet
  have hgi : (lcsRows old new).getD i [] = (lcsRows old new)[i] := by
    rw [List.getD_eq_getElem?_getD, List.getElem?_eq_getElem hil]
    rfl
  rw [hgi]
  have hgj : ((lcsRows old new)[i]).getD j 0 = (lcsRows old new)[i][j] := by
    rw [List.getD_eq_getElem?_getD, List.getElem?_eq_getElem hjl]
    rfl
  rw [hgj]

theorem diffBackChecked_some (old new : List String) :
    ∀ fuel i j, i + j ≤ fuel → i ≤ old.length → j ≤ new.length →
      diffBackChecked old new (lcsRows old new) fuel i j =
        some (diffBackF old new (lcsRows old new) fuel i j) := by
  intro fuel
  induction fuel with
  | zero => intro i j h hi hj; rfl
  | succ f ih =>
    intro i j h hi hj
    simp only [diffBackChecked, diffBackF]
    by_cases h1 : 0 < i ∧ 0 < j ∧ old.getD (i - 1) "" = new.getD (j - 1) ""
    · rw [if_pos h1, if_pos h1, ih (i - 1) (j - 1) (by omega) (by omega) (by omega)]
      rfl
    · rw [if_neg h1, if_neg h1]
      by_cases h2 : 0 < j ∧ i = 0
      · rw [if_pos h2, if_pos (show 0 < j ∧ (i = 0 ∨ tableGet (lcsRows old new) i (j - 1) ≥
          tableGet (lcsRows old new) (i - 1) j) from ⟨h2.1, Or.inl h2.2⟩)]
        rw [ih i (j - 1) (by omega) hi (by omega)]
        rfl
      · rw [if_neg h2]
        by_cases h3 : 0 < j
        · have hi0 : 0 < i := by
            rcases Nat.eq_zero_or_pos i with h0 | h0
            · exact absurd ⟨h3, h0⟩ h2
            · exact h0
          rw [if_pos h3, lcsRows_access old new i (j - 1) hi (by omega),
            lcsRows_access old new (i - 1) j (by omega) hj, Option.some_bind,
            Option.some_bind]
          by_cases hge : tableGet (lcsRows old new) i (j - 1) ≥
              tableGet (lcsRows old new) (i - 1) j
          · rw [if_pos hge, if_pos (show 0 < j ∧ (i = 0 ∨ _) from ⟨h3, Or.inr hge⟩)]
            rw [ih i (j - 1) (by omega) hi (by omega)]
            rfl
          · rw [if_neg hge, if_neg (show ¬(0 < j ∧ (i = 0 ∨ tableGet (lcsRows old new) i (j - 1) ≥
                tableGet (lcsRows old new) (i - 1) j)) from ?_), if_pos hi0,
              ih (i - 1) j (by omega) (by omega) hj]
            · rfl
            · rintro ⟨-, h0 | hc⟩
              · omega
              · exact hge hc
        · rw [if_neg h3, if_neg (show ¬(0 < j ∧ (i = 0 ∨ tableGet (lcsRows old new) i (j - 1) ≥
            tableGet (lcsRows old new) (i - 1) j)) from fun hc => h3 hc.1)]
          by_cases h4 : 0 < i
          · rw [if_pos h4, if_pos h4, ih (i - 1) j (by omega) (by omega) hj]
            rfl
          · rw [if_neg h4, if_neg h4]

theorem getElem?_of_drop_cons (l : List String) (k : Nat) (a : String) (t : List String)
    (h : l.drop k = a :: t) : l[k]? = some a := by
  have h0 := List.getElem?_drop l k 0
  rw [h] at h0
  simpa using h0.symm

theorem tagLinesChecked_some (old new : List String) :
    ∀ s k l, isEditScript s (old.drop k) (new.drop l) = true →
      tagLinesChecked old new s k l = some (tagLines old new s k l) := by
  intro s
  induction s with
  | nil => intro k l h; rfl
  | cons op s ih =>
    intro k l h
    match op with
    | DiffOp.Equal =>
      match ho : old.drop k, hn : new.drop l with
      | [], _ => rw [ho] at h; simp [isEditScript] at h
      | _ :: _, [] => rw [ho, hn] at h; simp [isEditScript] at h
      | a :: os, b :: nw =>
        rw [ho, hn] at h
        simp only [isEditScript, Bool.and_eq_true, beq_iff_eq] at h
        have hga := getElem?_of_drop_cons old k a os ho
        have hda : old.drop (k + 1) = os := by rw [← List.tail_drop, ho]; rfl
        have hdb : new.drop (l + 1) = nw := by rw [← List.tail_drop, hn]; rfl
        have IH := ih (k + 1) (l + 1) (by rw [hda, hdb]; exact h.2)
        simp only [tagLinesChecked, tagLines, hga, IH]
        have hgav : old.getD k "" = a := by
          rw [List.getD_eq_getElem?_getD, hga]
          rfl
        rw [hgav]
        rfl
    | DiffOp.Remove =>
      match ho : old.drop k with
      | [] => rw [ho] at h; simp [isEditScript] at h
      | a :: os =>
        rw [ho] at h
        simp only [isEditScript] at h
        have hga := getElem?_of_drop_cons old k a os ho
        have hda : old.drop (k + 1) = os := by rw [← List.tail_drop, ho]; rfl
        have IH := ih (k + 1) l (by rw [hda]; exact h)
        simp only [tagLinesChecked, tagLines, hga, IH]
        have hgav : old.getD k "" = a := by
          rw [List.getD_eq_getElem?_getD, hga]
          rfl
        rw [hgav]
        rfl
    | DiffOp.Add =>
      match hn : new.drop l with
      | [] => rw [hn] at h; simp [isEditScript] at h
      | b :: nw =>
        rw [hn] at h
        simp only [isEditScript] at h
        have hgb := getElem?_of_drop_cons new l b nw hn
        have hdb : new.drop (l + 1) = nw := by rw [← List.tail_drop, hn]; rfl
        have IH := ih k (l + 1) (by rw [hdb]; exact h)
        simp only [tagLinesChecked, tagLines, hgb, IH]
        have hgbv : new.getD l "" = b := by
          rw [List.getD_eq_getElem?_getD, hgb]
          rfl
        rw [hgbv]
        rfl

theorem resolveTop_fuel_irrel (reg : Registry) (fuel : Nat) (h : resolveFuel reg ≤ fuel) :
    ∀ (names : List String) (st : List String × List String),
      names.foldl (fun s n => resolveRec reg fuel n s) st =
        names.foldl (fun s n => resolveRec reg (resolveFuel reg) n s) st := by
  obtain ⟨a, rfl⟩ : ∃ a, fuel = a + 1 := by
    refine ⟨fuel - 1, ?_⟩
    unfold resolveFuel at h
    omega
  intro names
  induction names with
  | nil => intro st; rfl
  | cons n names ih =>
    intro st
    simp only [List.foldl_cons]
    have hcm := countMissing_le reg st.2
    have hstep : resolveRec reg (a + 1) n st =
        resolveRec reg (reg.components.length + 1) n st := by
      apply resolveRec_fuel_irrel reg a reg.components.length n st
      · unfold resolveFuel at h
        omega
      · omega
    rw [hstep]
    exact ih _

/-- C4: the differ and formatter never index out of bounds and the resolver
always terminates.  For any two input strings: the backtracking loop with
every LCS-table access made explicit (`none` modelling a panic) returns
`some` of the unchecked backtrack over the whole run from
`(old.length, new.length)`, and the tagging pass with every line-vector
access made explicit returns `some` on the script `diff_ops` produces.  For
any registry and any name list, cyclic registries included, the resolver
terminates without error: any fuel at least `resolveFuel` (which the
fuel-bounded embedding of the unbounded Rust recursion always has) computes
the same result. -/
theorem C4_totality (old new : String) (reg : Registry) (names : List String)
    (fuel : Nat) (h : resolveFuel reg ≤ fuel) :
    diffBackChecked (rustLines old) (rustLines new)
        (lcsRows (rustLines old) (rustLines new))
        ((rustLines old).length + (rustLines new).length)
        (rustLines old).length (rustLines new).length =
      some (diffBackF (rustLines old) (rustLines new)
        (lcsRows (rustLines old) (rustLines new))
        ((rustLines old).length + (rustLines new).length)
        (rustLines old).length (rustLines new).length) ∧
    tagLinesChecked (rustLines old) (rustLines new)
        (diff_ops (rustLines old) (rustLines new)) 0 0 =
      some (tagLines (rustLines old) (rustLines new)
        (diff_ops (rustLines old) (rustLines new)) 0 0) ∧
    (names.foldl (fun st n => resolveRec reg fuel n st) ([], [])).1 =
      reg.resolve_dependencies names := by
  refine ⟨?_, ?_, ?_⟩
  · exact diffBackChecked_some (rustLines old) (rustLines new)
      ((rustLines old).length + (rustLines new).length)
      (rustLines old).length (rustLines new).length le_rfl le_rfl le_rfl
  · exact tagLinesChecked_some (rustLines old) (rustLines new) _ 0 0
      (by simpa using diff_ops_isEditScript (rustLines old) (rustLines new))
  · rw [Registry.resolve_dependencies]
    rw [resolveTop_fuel_irrel reg fuel h names ([], [])]

/-- Witness instantiating `C4_totality` on the cyclic registry with surplus
fuel. -/
theorem C4_witness :
    diffBackChecked (rustLines "a") (rustLines "b")
        (lcsRows (rustLines "a") (rustLines "b"))
        ((rustLines "a").length + (rustLines "b").length)
        (rustLines "a").length (rustLines "b").length =
      some (diffBackF (rustLines "a") (rustLines "b")
        (lcsRows (rustLines "a") (rustLines "b"))
        ((rustLines "a").length + (rustLines "b").length)
        (rustLines "a").length (rustLines "b").length) ∧
    tagLinesChecked (rustLines "a") (rustLines "b")
        (diff_ops (rustLines "a") (rustLines "b")) 0 0 =
      some (tagLines (rustLines "a") (rustLines "b")
        (diff_ops (rustLines "a") (rustLines "b")) 0 0) ∧
    (List.foldl (fun st n => resolveRec regCyc 10 n st) ([], []) ["cycA"]).1 =
      regCyc.resolve_dependencies ["cycA"] :=
  ⟨(C4_totality "a" "b" regCyc ["cycA"] 10 (by decide)).1,
   (C4_totality "a" "b" regCyc ["cycA"] 10 (by decide)).2.1,
   (C4_totality "a" "b" regCyc ["cycA"] 10 (by decide)).2.2⟩

end ShadcnSpec
